import Mathlib

/-!
Verification of the correlation and matching-reduction core of the
KIA metric benchmarking tool (package kia_mbt, directory kia_correlate).

The development shallowly embeds the three source files

  * kia_mbt/kia_correlate/box_correlator.py      (class BoxCorrelator)
  * kia_mbt/kia_correlate/matching_reduction.py  (class MatchingReduction)
  * kia_mbt/kia_correlate/matching_threshold.py  (class MatchingThreshold)

into Lean.  Modelling conventions:

  * pandas DataFrames become lists of explicit row structures; a row's
    DataFrame index becomes an explicit string field.
  * finite floats become rationals; the float NaN sentinel becomes the
    value (none : Option Rat).  The comparisons the code performs on
    possibly-NaN floats (x >= t, x < t, x > running-max) are embedded so
    that a NaN operand makes the comparison false, exactly as in IEEE
    arithmetic; see oge, olt and bestAnn below.
  * the plus/minus infinity clip defaults become (none : Option Rat)
    bounds, with max/min against an absent bound acting as identity
    (omax / omin), exactly the behaviour of max/min against -inf / inf.
  * pandas sort_values becomes a stable insertion sort
    (List.insertionSort); sorted(...) on python sets becomes a sort of a
    deduplicated list; python sets of ids become deduplicated lists, and
    set difference becomes a filter; DataFrame.drop_duplicates (keep
    first) becomes drop_duplicates below.
  * column-name parameters (confidence_col and friends) are fixed to the
    default schema: the embedded rows carry the default columns as
    fields, so a column-name override is a pure renaming.
-/

namespace KiaCorrelate

/-- Value of a possibly-missing float column: some q is a finite float,
none is the NaN sentinel. -/
abbrev Val := Option ℚ

/-- Comparison x >= t where x may be NaN (none): NaN makes it false. -/
def oge (x : Val) (t : ℚ) : Bool :=
  match x with
  | none => false
  | some v => t ≤ v

/-- Comparison x < t where x may be NaN (none): NaN makes it false. -/
def olt (x : Val) (t : ℚ) : Bool :=
  match x with
  | none => false
  | some v => v < t

/-- Row of the match table built by BoxCorrelator._build_matching_entry:
the seven output columns. -/
structure MatchEntry where
  sample_name : String
  annotation_index : Option String
  detection_index : Option String
  confusion : String
  class_id : String
  match_value : Val
  confidence : Val
deriving DecidableEq, Repr

/-- Row of the ground-truth table (columns used by the core; the
DataFrame index string is the index field). -/
structure AnnRow where
  index : String
  sample_name : String
  class_id : String
  center : ℚ × ℚ
  size : ℚ × ℚ
deriving DecidableEq, Repr

/-- Row of the prediction table (columns used by the core). -/
structure DetRow where
  index : String
  sample_name : String
  class_id : String
  center : ℚ × ℚ
  size : ℚ × ℚ
  confidence : ℚ
deriving DecidableEq, Repr

/-! DataFrame.drop_duplicates(subset=key, keep="first"): keep the first
row for every key value.  The seen accumulator is the set of key values
already emitted. -/

/-- Keep the first row of every key value, skipping rows whose key is in
seen. -/
def dropDupSeen (key : MatchEntry → Option String) (seen : List (Option String)) :
    List MatchEntry → List MatchEntry
  | [] => []
  | e :: rest =>
    if key e ∈ seen then dropDupSeen key seen rest
    else e :: dropDupSeen key (key e :: seen) rest

/-- pandas drop_duplicates on one (nullable) column, keeping the first
occurrence; NaN/None keys compare equal to each other, as in pandas. -/
def drop_duplicates (key : MatchEntry → Option String) (l : List MatchEntry) :
    List MatchEntry :=
  dropDupSeen key [] l

/-! Geometry: BoxCorrelator._convert_coords, _clip_coords, _compute_iou. -/

/-- Corner form of a box. -/
structure Corners where
  x_min : ℚ
  y_min : ℚ
  x_max : ℚ
  y_max : ℚ
deriving DecidableEq, Repr

/-- max(x, b) against a lower bound that may be minus infinity (none). -/
def omax (x : ℚ) : Option ℚ → ℚ
  | none => x
  | some b => max x b

/-- min(x, b) against an upper bound that may be plus infinity (none). -/
def omin (x : ℚ) : Option ℚ → ℚ
  | none => x
  | some b => min x b

/-- Conversion of a center/size box to corner coordinates
(BoxCorrelator._convert_coords). -/
def convert_coords (center size : ℚ × ℚ) : Corners :=
  ⟨center.1 - (1/2) * size.1, center.2 - (1/2) * size.2,
   center.1 + (1/2) * size.1, center.2 + (1/2) * size.2⟩

/-- Truncation of corner coordinates to the clip window, in the exact
operation order of BoxCorrelator._clip_coords: first pull the max corner
inside, then pull the min corner inside. -/
def clip_coords (c : Corners)
    (clip_x_min clip_y_min clip_x_max clip_y_max : Option ℚ) : Corners :=
  let x_max := omax c.x_max clip_x_min
  let y_max := omax c.y_max clip_y_min
  let x_max := omin x_max clip_x_max
  let y_max := omin y_max clip_y_max
  let x_min := omin c.x_min clip_x_max
  let y_min := omin c.y_min clip_y_max
  let x_min := omax x_min clip_x_min
  let y_min := omax y_min clip_y_min
  ⟨x_min, y_min, x_max, y_max⟩

/-- Pair of clip bounds (min, max); none is an infinite bound. -/
abbrev ClipPair := Option ℚ × Option ℚ

/-- Well-formed clip window: when both bounds are finite, min <= max. -/
def clip_ok : ClipPair → Prop
  | (some l, some h) => l ≤ h
  | _ => True

/-- Area of a box in corner form (may be negative for inverted corners). -/
def box_area (c : Corners) : ℚ := (c.x_max - c.x_min) * (c.y_max - c.y_min)

/-- Area of the intersection of two boxes in corner form, floored at
zero, as computed inside BoxCorrelator._compute_iou. -/
def inter_area (c1 c2 : Corners) : ℚ :=
  let x_min := max c1.x_min c2.x_min
  let x_max := min c1.x_max c2.x_max
  let y_min := max c1.y_min c2.y_min
  let y_max := min c1.y_max c2.y_max
  max 0 (x_max - x_min) * max 0 (y_max - y_min)

/-- Corner form of a center/size box after conversion and clipping, as
computed by the first half of BoxCorrelator._compute_iou. -/
def clipped_box (center size : ℚ × ℚ) (clip_x clip_y : ClipPair) : Corners :=
  clip_coords (convert_coords center size) clip_x.1 clip_y.1 clip_x.2 clip_y.2

/-- Intersection over union of two center/size boxes under a clip window
(BoxCorrelator._compute_iou); eps guards the division. -/
def compute_iou (center1 size1 center2 size2 : ℚ × ℚ)
    (clip_x clip_y : ClipPair) (eps : ℚ) : ℚ :=
  let c1 := clipped_box center1 size1 clip_x clip_y
  let c2 := clipped_box center2 size2 clip_x clip_y
  inter_area c1 c2 / (box_area c1 + box_area c2 - inter_area c1 c2 + eps)

/-- Default eps of _compute_iou (1e-12). -/
def default_eps : ℚ := 1 / 1000000000000

/-! Construction: BoxCorrelator.__init__. -/

/-- Configuration state stored by a successfully constructed
BoxCorrelator (the attributes the matching code reads). -/
structure BoxCorrelatorConfig where
  threshold : ℚ
  matching_type : String
  clip_truncated_boxes : Bool
  clip_x : ClipPair
  clip_y : ClipPair
deriving DecidableEq, Repr

/-- Constructor BoxCorrelator.__init__: records the parameters, resolves
the clip window (note the source overwrites any explicitly supplied clip
rectangle with an unbounded one whenever clip_truncated_boxes is false),
and fails on an unknown matching_type.  A kwarg value none means the
keyword argument was not passed. -/
def box_correlator_init (threshold : ℚ) (matching_type : String)
    (clip_truncated_boxes : Bool)
    (clip_x_kwarg clip_y_kwarg : Option ClipPair) :
    Except String BoxCorrelatorConfig :=
  let clip_x :=
    if clip_truncated_boxes then
      match clip_x_kwarg with
      | none => ((some 0, some 1920) : ClipPair)
      | some c => c
    else ((none, none) : ClipPair)
  let clip_y :=
    if clip_truncated_boxes then
      match clip_y_kwarg with
      | none => ((some 0, some 1280) : ClipPair)
      | some c => c
    else ((none, none) : ClipPair)
  if matching_type = "complete" ∨ matching_type = "exclusive" then
    Except.ok ⟨threshold, matching_type, clip_truncated_boxes, clip_x, clip_y⟩
  else
    Except.error "Unknown matching_type in Correlator encountered."

/-! Matching policies: BoxCorrelator._match_boxes_complete and
_match_boxes_exclusive, and the driver BoxCorrelator.match. -/

/-- Matching criterion callable, in the argument order of the source
(detection center, detection size, annotation center, annotation size);
the clip-window kwargs are already baked in.  The result none models a
NaN criterion value (for instance from NaN box coordinates). -/
abbrev Criterion := (ℚ × ℚ) → (ℚ × ℚ) → (ℚ × ℚ) → (ℚ × ℚ) → Val

/-- Result triple of a _match_boxes implementation: the tp entries, the
matched annotation ids and the matched detection ids. -/
abbrev MatchResult := List MatchEntry × List String × List String

/-- Helper BoxCorrelator._build_matching_entry. -/
def build_matching_entry (sample_name : String)
    (ann_index det_index : Option String) (confusion class_id : String)
    (match_value confidence : Val) : MatchEntry :=
  ⟨sample_name, ann_index, det_index, confusion, class_id, match_value, confidence⟩

/-- Complete policy: every (detection, annotation) pair of the slice with
criterion value at least the threshold yields a tp entry; matched id
sets are returned as deduplicated lists. -/
def match_boxes_complete (annotations_cls : List AnnRow)
    (detections_cls : List DetRow) (criterion : Criterion) (threshold : ℚ) :
    MatchResult :=
  let tp_matching := detections_cls.flatMap (fun det =>
    annotations_cls.filterMap (fun ann =>
      let match_value := criterion det.center det.size ann.center ann.size
      if oge match_value threshold then
        some (build_matching_entry ann.sample_name (some ann.index) (some det.index)
          "tp" ann.class_id match_value (some det.confidence))
      else none))
  (tp_matching, (tp_matching.filterMap (fun e => e.annotation_index)).dedup,
    (tp_matching.filterMap (fun e => e.detection_index)).dedup)

/-- Relation sorting detections by confidence descending; the stable
insertion sort keeps ties in input order (pandas sort_values with
ascending false). -/
def det_conf_ge (a b : DetRow) : Prop := b.confidence ≤ a.confidence

instance : DecidableRel det_conf_ge :=
  fun a b => inferInstanceAs (Decidable (b.confidence ≤ a.confidence))

/-- Detections of the slice sorted by confidence descending. -/
def sort_detections (detections_cls : List DetRow) : List DetRow :=
  detections_cls.insertionSort det_conf_ge

/-- Inner annotation loop of _match_boxes_exclusive: running maximum of
the criterion, starting from minus infinity (modelled as none).  Only a
strictly greater value replaces the maximum, so the first annotation
attaining the maximum wins ties, and a NaN criterion value (none) never
replaces anything, exactly as NaN > x is false. -/
def best_step (det : DetRow) (criterion : Criterion)
    (best : Option (ℚ × AnnRow)) (ann : AnnRow) : Option (ℚ × AnnRow) :=
  match criterion det.center det.size ann.center ann.size with
  | none => best
  | some v =>
    match best with
    | none => some (v, ann)
    | some (mv, a) => if mv < v then some (v, ann) else some (mv, a)

/-- Running maximum over all annotation rows of the slice. -/
def bestAnn (det : DetRow) (criterion : Criterion)
    (annotations_cls : List AnnRow) : Option (ℚ × AnnRow) :=
  annotations_cls.foldl (best_step det criterion) none

/-- Body of the sorted detection loop of _match_boxes_exclusive.  The tp
entry uses the matched annotation row for sample_name and class_id: the
source reads sample_name off the last-iterated annotation row and
class_id off the matched one, and the two agree because the slice holds
a single sample (the documented precondition of _match_boxes_exclusive). -/
def exclusive_step (annotations_cls : List AnnRow) (criterion : Criterion)
    (threshold : ℚ) (st : MatchResult) (det : DetRow) : MatchResult :=
  match bestAnn det criterion annotations_cls with
  | none => st
  | some (v, ann) =>
    if threshold ≤ v ∧ ann.index ∉ st.2.1 then
      (st.1 ++ [build_matching_entry ann.sample_name (some ann.index) (some det.index)
        "tp" ann.class_id (some v) (some det.confidence)],
       st.2.1 ++ [ann.index], st.2.2 ++ [det.index])
    else st

/-- Exclusive policy: greedy one-to-one matching over the detections in
confidence-descending order. -/
def match_boxes_exclusive (annotations_cls : List AnnRow)
    (detections_cls : List DetRow) (criterion : Criterion) (threshold : ℚ) :
    MatchResult :=
  (sort_detections detections_cls).foldl
    (exclusive_step annotations_cls criterion threshold) ([], [], [])

/-- Matched annotation ids after the exclusive loop has processed a
prefix of the sorted detections. -/
def matched_after (annotations_cls : List AnnRow) (criterion : Criterion)
    (threshold : ℚ) (dets_done : List DetRow) : List String :=
  (dets_done.foldl (exclusive_step annotations_cls criterion threshold)
    ([], [], [])).2.1

/-- The two matching policies (the value stored in self._match_boxes at
construction). -/
inductive MatchingType
  | complete
  | exclusive
deriving DecidableEq, Repr

/-- Policy dispatch for the stored _match_boxes callable. -/
def match_boxes (mt : MatchingType) :
    List AnnRow → List DetRow → Criterion → ℚ → MatchResult :=
  match mt with
  | .complete => match_boxes_complete
  | .exclusive => match_boxes_exclusive

/-- python sorted(...) over strings. -/
def sortStr (l : List String) : List String :=
  l.insertionSort (fun a b => a ≤ b)

/-- Slice of the annotation table for one (sample_name, class_id) pair.
The source filters by sample once and then by class inside the inner
loop; filtering by both keys is the same slice. -/
def ann_slice (annotation_data : List AnnRow) (sample_name class_id : String) :
    List AnnRow :=
  (annotation_data.filter (fun r => r.sample_name = sample_name)).filter
    (fun r => r.class_id = class_id)

/-- Slice of the prediction table for one (sample_name, class_id) pair. -/
def det_slice (detection_data : List DetRow) (sample_name class_id : String) :
    List DetRow :=
  (detection_data.filter (fun r => r.sample_name = sample_name)).filter
    (fun r => r.class_id = class_id)

/-- False positive entries of one block: one per detection index of the
slice (deduplicated, python set difference) not matched by the policy;
the confidence is looked up from the slice row with that index. -/
def block_fp_entries (mt : MatchingType) (annotation_data : List AnnRow)
    (detection_data : List DetRow) (criterion : Criterion) (threshold : ℚ)
    (sample_name class_id : String) : List MatchEntry :=
  let detections_class := det_slice detection_data sample_name class_id
  let res := match_boxes mt (ann_slice annotation_data sample_name class_id)
    detections_class criterion threshold
  ((detections_class.map (fun r => r.index)).dedup.filter
    (fun i => i ∉ res.2.2)).map (fun fp_det_id =>
      build_matching_entry sample_name none (some fp_det_id) "fp" class_id none
        ((detections_class.find? (fun r => r.index = fp_det_id)).map
          (fun r => r.confidence)))

/-- False negative entries of one block: one per annotation index of the
slice (deduplicated, python set difference) not matched by the policy. -/
def block_fn_entries (mt : MatchingType) (annotation_data : List AnnRow)
    (detection_data : List DetRow) (criterion : Criterion) (threshold : ℚ)
    (sample_name class_id : String) : List MatchEntry :=
  let res := match_boxes mt (ann_slice annotation_data sample_name class_id)
    (det_slice detection_data sample_name class_id) criterion threshold
  ((ann_slice annotation_data sample_name class_id).map
      (fun r => r.index)).dedup.filter (fun i => i ∉ res.2.1)
    |>.map (fun fn_ann_id =>
      build_matching_entry sample_name (some fn_ann_id) none "fn" class_id none none)

/-- Rows BoxCorrelator.match emits for one (sample_name, class_id) pair:
the policy's tp entries, false positives for unmatched detections of the
slice, false negatives for unmatched annotation rows of the slice. -/
def match_block (mt : MatchingType) (annotation_data : List AnnRow)
    (detection_data : List DetRow) (criterion : Criterion) (threshold : ℚ)
    (sample_name class_id : String) : List MatchEntry :=
  (match_boxes mt (ann_slice annotation_data sample_name class_id)
    (det_slice detection_data sample_name class_id) criterion threshold).1 ++
  block_fp_entries mt annotation_data detection_data criterion threshold
    sample_name class_id ++
  block_fn_entries mt annotation_data detection_data criterion threshold
    sample_name class_id

/-- Sample names iterated by BoxCorrelator.match: the sample names of
the annotation table only, sorted ascending. -/
def sample_name_list (annotation_data : List AnnRow) : List String :=
  sortStr ((annotation_data.map (fun r => r.sample_name)).dedup)

/-- Class ids iterated by BoxCorrelator.match: the union of both tables'
class ids, sorted, optionally restricted to match_classes (an empty
restriction list is falsy in python, hence no restriction). -/
def class_id_list (annotation_data : List AnnRow)
    (detection_data : List DetRow) (match_classes : Option (List String)) :
    List String :=
  let class_ids := ((annotation_data.map (fun r => r.class_id)) ++
    (detection_data.map (fun r => r.class_id))).dedup
  let class_ids :=
    match match_classes with
    | none => class_ids
    | some mc => if mc = [] then class_ids else class_ids.filter (fun c => c ∈ mc)
  sortStr class_ids

/-- Method BoxCorrelator.match: concatenate the blocks over all
(sample, class) pairs. -/
def correlator_match (mt : MatchingType) (annotation_data : List AnnRow)
    (detection_data : List DetRow) (criterion : Criterion) (threshold : ℚ)
    (match_classes : Option (List String)) : List MatchEntry :=
  (sample_name_list annotation_data).flatMap (fun sample_name =>
    (class_id_list annotation_data detection_data match_classes).flatMap
      (fun class_id =>
        match_block mt annotation_data detection_data criterion threshold
          sample_name class_id))

/-- Criterion the correlator binds in __call__: _compute_iou with the
configured clip window and the default epsilon. -/
def iou_criterion (clip_x clip_y : ClipPair) : Criterion :=
  fun detection_center detection_size ann_center ann_size =>
    some (compute_iou detection_center detection_size ann_center ann_size
      clip_x clip_y default_eps)

/-- Matching policy selected at construction from the matching_type
string. -/
def config_policy (cfg : BoxCorrelatorConfig) : MatchingType :=
  if cfg.matching_type = "complete" then .complete else .exclusive

/-- Call operator BoxCorrelator.__call__. -/
def correlator_call (cfg : BoxCorrelatorConfig) (annotation_data : List AnnRow)
    (detection_data : List DetRow) : List MatchEntry :=
  correlator_match (config_policy cfg) annotation_data detection_data
    (iou_criterion cfg.clip_x cfg.clip_y) cfg.threshold none

/-- Invariant of the running-maximum fold over a processed prefix of the
annotation rows: a maximum of none means every processed criterion value
was NaN; otherwise the maximum is attained, every earlier row is
strictly below it and every processed row is at most it. -/
def BestInv (det : DetRow) (criterion : Criterion) (processed : List AnnRow) :
    Option (ℚ × AnnRow) → Prop
  | none => ∀ b ∈ processed, criterion det.center det.size b.center b.size = none
  | some (v, a) =>
      (∃ l1 l2, processed = l1 ++ a :: l2 ∧
        criterion det.center det.size a.center a.size = some v ∧
        ∀ b ∈ l1, ∀ w, criterion det.center det.size b.center b.size = some w → w < v) ∧
      ∀ b ∈ processed, ∀ w,
        criterion det.center det.size b.center b.size = some w → w ≤ v

/-- Invariant of the exclusive matching loop over a processed prefix of
the sorted detections: every accumulated tp entry comes from a processed
detection matched to its best annotation above threshold, and the
matched id lists are exactly the ids referenced by the tp entries. -/
def ExclInv (annotations_cls : List AnnRow) (criterion : Criterion)
    (threshold : ℚ) (processed : List DetRow) (st : MatchResult) : Prop :=
  (∀ e ∈ st.1, ∃ a ∈ annotations_cls, ∃ d ∈ processed, ∃ v : ℚ,
    bestAnn d criterion annotations_cls = some (v, a) ∧ threshold ≤ v ∧
    e = build_matching_entry a.sample_name (some a.index) (some d.index) "tp"
      a.class_id (some v) (some d.confidence)) ∧
  (∀ i : String, i ∈ st.2.1 ↔ ∃ e ∈ st.1, e.annotation_index = some i) ∧
  (∀ i : String, i ∈ st.2.2 ↔ ∃ e ∈ st.1, e.detection_index = some i)

/-! MatchingReduction.reduce_to_exclusive and
MatchingThreshold.apply_iou_threshold / apply_confidence_threshold. -/

/-- Descending-order comparison on a nullable float column, NaN (none)
ordered last, as pandas sort_values with ascending False and the default
na_position last. -/
def desc_key (a b : Val) : Bool :=
  match a, b with
  | some x, some y => y ≤ x
  | some _, none => true
  | none, some _ => false
  | none, none => true

/-- Sort key of the tp rows in reduce_to_exclusive: confidence
descending, then match_value descending. -/
def tp_le (a b : MatchEntry) : Bool :=
  if a.confidence = b.confidence then desc_key a.match_value b.match_value
  else desc_key a.confidence b.confidence

/-- Stable sort of tp rows by (confidence desc, match_value desc). -/
def sort_tp (l : List MatchEntry) : List MatchEntry :=
  l.insertionSort (fun a b => tp_le a b = true)

/-- Ascending comparison on a nullable string column, nulls last. -/
def asc_opt (a b : Option String) : Bool :=
  match a, b with
  | some x, some y => x ≤ y
  | some _, none => true
  | none, some _ => false
  | none, none => true

/-- Readability re-sort key used by all three table rewriters: class_id
ascending, confusion descending (tp before fp before fn), then
annotation_index and detection_index ascending with nulls last. -/
def out_le (a b : MatchEntry) : Bool :=
  if a.class_id = b.class_id then
    if a.confusion = b.confusion then
      if a.annotation_index = b.annotation_index then
        asc_opt a.detection_index b.detection_index
      else asc_opt a.annotation_index b.annotation_index
    else b.confusion ≤ a.confusion
  else a.class_id ≤ b.class_id

/-- Optional final re-sort (the sort_output flag). -/
def sort_out (sort_output : Bool) (l : List MatchEntry) : List MatchEntry :=
  if sort_output then l.insertionSort (fun a b => out_le a b = true) else l

/-- Sample names of a match table, sorted ascending. -/
def sample_names_of (matching : List MatchEntry) : List String :=
  sortStr ((matching.map (fun r => r.sample_name)).dedup)

/-- Sorted tp rows of one sample (steps 1 and 2 of reduce_to_exclusive). -/
def reduce_tp_sorted (matching : List MatchEntry) (sample_name : String) :
    List MatchEntry :=
  sort_tp ((matching.filter (fun r => r.sample_name = sample_name)).filter
    (fun r => r.confusion = "tp"))

/-- Surviving tp rows: duplicates dropped on detection_index first, then
on annotation_index (steps 3 and 4 of reduce_to_exclusive). -/
def reduce_tp_keep (matching : List MatchEntry) (sample_name : String) :
    List MatchEntry :=
  drop_duplicates (fun r => r.annotation_index)
    (drop_duplicates (fun r => r.detection_index)
      (reduce_tp_sorted matching sample_name))

/-- New false negatives of one sample: one per annotation index present
in the tp rows but absent from the survivors, with detection fields and
numeric fields nulled (step 5 of reduce_to_exclusive). -/
def reduce_fn_update (matching : List MatchEntry) (sample_name : String) :
    List MatchEntry :=
  let tp_sorted := reduce_tp_sorted matching sample_name
  let keep_ids := (reduce_tp_keep matching sample_name).map
    (fun r => r.annotation_index)
  let new_fn_ids := ((tp_sorted.map (fun r => r.annotation_index)).dedup).filter
    (fun i => i ∉ keep_ids)
  (drop_duplicates (fun r => r.annotation_index)
    (tp_sorted.filter (fun r => r.annotation_index ∈ new_fn_ids))).map
    (fun r =>
      { r with detection_index := none, confusion := "fn", match_value := none,
               confidence := none })

/-- New false positives of one sample: one per detection index present
in the tp rows but absent from the survivors, with the annotation index
nulled and the match value nulled, the confidence kept (step 6 of
reduce_to_exclusive). -/
def reduce_fp_update (matching : List MatchEntry) (sample_name : String) :
    List MatchEntry :=
  let tp_sorted := reduce_tp_sorted matching sample_name
  let keep_ids := (reduce_tp_keep matching sample_name).map
    (fun r => r.detection_index)
  let new_fp_ids := ((tp_sorted.map (fun r => r.detection_index)).dedup).filter
    (fun i => i ∉ keep_ids)
  (drop_duplicates (fun r => r.detection_index)
    (tp_sorted.filter (fun r => r.detection_index ∈ new_fp_ids))).map
    (fun r =>
      { r with annotation_index := none, confusion := "fp",
               match_value := none })

/-- One sample of reduce_to_exclusive: survivors, kept fp, new fp, kept
fn, new fn, in the concatenation order of the source, optionally
re-sorted. -/
def reduce_sample (matching : List MatchEntry) (sample_name : String)
    (sort_output : Bool) : List MatchEntry :=
  let sample_matching := matching.filter (fun r => r.sample_name = sample_name)
  let fp_keep := sample_matching.filter (fun r => r.confusion = "fp")
  let fn_keep := sample_matching.filter (fun r => r.confusion = "fn")
  sort_out sort_output
    (reduce_tp_keep matching sample_name ++ fp_keep ++
      reduce_fp_update matching sample_name ++ fn_keep ++
      reduce_fn_update matching sample_name)

/-- MatchingReduction.reduce_to_exclusive: reduce every sample and
concatenate (an empty table yields the empty table). -/
def reduce_to_exclusive (matching : List MatchEntry) (sort_output : Bool) :
    List MatchEntry :=
  (sample_names_of matching).flatMap
    (fun s => reduce_sample matching s sort_output)

/-- Kept tp rows of apply_iou_threshold for one sample: match_value at
least the new threshold (NaN fails the comparison). -/
def iou_tp_keep (matching : List MatchEntry) (iou_threshold : ℚ)
    (sample_name : String) : List MatchEntry :=
  ((matching.filter (fun r => r.sample_name = sample_name)).filter
    (fun r => r.confusion = "tp")).filter
    (fun r => oge r.match_value iou_threshold)

/-- Demoted tp rows of apply_iou_threshold for one sample: match_value
strictly below the new threshold (NaN also fails this comparison, so a
NaN row is neither kept nor demoted). -/
def iou_tp_check (matching : List MatchEntry) (iou_threshold : ℚ)
    (sample_name : String) : List MatchEntry :=
  ((matching.filter (fun r => r.sample_name = sample_name)).filter
    (fun r => r.confusion = "tp")).filter
    (fun r => olt r.match_value iou_threshold)

/-- New false negatives of apply_iou_threshold for one sample. -/
def iou_fn_update (matching : List MatchEntry) (iou_threshold : ℚ)
    (sample_name : String) : List MatchEntry :=
  let keep_ids := (iou_tp_keep matching iou_threshold sample_name).map
    (fun r => r.annotation_index)
  (drop_duplicates (fun r => r.annotation_index)
    ((iou_tp_check matching iou_threshold sample_name).filter
      (fun r => r.annotation_index ∉ keep_ids))).map
    (fun r =>
      { r with detection_index := none, confusion := "fn", match_value := none,
               confidence := none })

/-- New false positives of apply_iou_threshold for one sample. -/
def iou_fp_update (matching : List MatchEntry) (iou_threshold : ℚ)
    (sample_name : String) : List MatchEntry :=
  let keep_ids := (iou_tp_keep matching iou_threshold sample_name).map
    (fun r => r.detection_index)
  (drop_duplicates (fun r => r.detection_index)
    ((iou_tp_check matching iou_threshold sample_name).filter
      (fun r => r.detection_index ∉ keep_ids))).map
    (fun r =>
      { r with annotation_index := none, confusion := "fp",
               match_value := none })

/-- One sample of apply_iou_threshold. -/
def iou_sample (matching : List MatchEntry) (iou_threshold : ℚ)
    (sample_name : String) (sort_output : Bool) : List MatchEntry :=
  let sample_matching := matching.filter (fun r => r.sample_name = sample_name)
  let fp_keep := sample_matching.filter (fun r => r.confusion = "fp")
  let fn_keep := sample_matching.filter (fun r => r.confusion = "fn")
  sort_out sort_output
    (iou_tp_keep matching iou_threshold sample_name ++ fp_keep ++
      iou_fp_update matching iou_threshold sample_name ++ fn_keep ++
      iou_fn_update matching iou_threshold sample_name)

/-- MatchingThreshold.apply_iou_threshold. -/
def apply_iou_threshold (matching : List MatchEntry) (iou_threshold : ℚ)
    (sort_output : Bool) : List MatchEntry :=
  (sample_names_of matching).flatMap
    (fun s => iou_sample matching iou_threshold s sort_output)

/-- Kept tp rows of apply_confidence_threshold for one sample. -/
def conf_tp_keep (matching : List MatchEntry) (confidence_threshold : ℚ)
    (sample_name : String) : List MatchEntry :=
  ((matching.filter (fun r => r.sample_name = sample_name)).filter
    (fun r => r.confusion = "tp")).filter
    (fun r => oge r.confidence confidence_threshold)

/-- Demoted tp rows of apply_confidence_threshold for one sample. -/
def conf_tp_check (matching : List MatchEntry) (confidence_threshold : ℚ)
    (sample_name : String) : List MatchEntry :=
  ((matching.filter (fun r => r.sample_name = sample_name)).filter
    (fun r => r.confusion = "tp")).filter
    (fun r => olt r.confidence confidence_threshold)

/-- Kept fp rows of apply_confidence_threshold for one sample: demoted
fp rows are dropped with no replacement. -/
def conf_fp_keep (matching : List MatchEntry) (confidence_threshold : ℚ)
    (sample_name : String) : List MatchEntry :=
  ((matching.filter (fun r => r.sample_name = sample_name)).filter
    (fun r => r.confusion = "fp")).filter
    (fun r => oge r.confidence confidence_threshold)

/-- New false negatives of apply_confidence_threshold for one sample. -/
def conf_fn_update (matching : List MatchEntry) (confidence_threshold : ℚ)
    (sample_name : String) : List MatchEntry :=
  let keep_ids := (conf_tp_keep matching confidence_threshold sample_name).map
    (fun r => r.annotation_index)
  (drop_duplicates (fun r => r.annotation_index)
    ((conf_tp_check matching confidence_threshold sample_name).filter
      (fun r => r.annotation_index ∉ keep_ids))).map
    (fun r =>
      { r with detection_index := none, confusion := "fn", match_value := none,
               confidence := none })

/-- One sample of apply_confidence_threshold (concatenation order of the
source: kept tp, kept fp, kept fn, new fn). -/
def conf_sample (matching : List MatchEntry) (confidence_threshold : ℚ)
    (sample_name : String) (sort_output : Bool) : List MatchEntry :=
  let fn_keep := (matching.filter (fun r => r.sample_name = sample_name)).filter
    (fun r => r.confusion = "fn")
  sort_out sort_output
    (conf_tp_keep matching confidence_threshold sample_name ++
      conf_fp_keep matching confidence_threshold sample_name ++ fn_keep ++
      conf_fn_update matching confidence_threshold sample_name)

/-- MatchingThreshold.apply_confidence_threshold. -/
def apply_confidence_threshold (matching : List MatchEntry)
    (confidence_threshold : ℚ) (sort_output : Bool) : List MatchEntry :=
  (sample_names_of matching).flatMap
    (fun s => conf_sample matching confidence_threshold s sort_output)

theorem dropDupSeen_sublist (key seen) :
    ∀ l : List MatchEntry, (dropDupSeen key seen l).Sublist l := by
  intro l
  induction l generalizing seen with
  | nil => simp [dropDupSeen]
  | cons e rest ih =>
    simp only [dropDupSeen]
    split
    · exact (ih seen).cons e
    · exact (ih (key e :: seen)).cons₂ e

theorem drop_duplicates_sublist (key) (l : List MatchEntry) :
    (drop_duplicates key l).Sublist l :=
  dropDupSeen_sublist key [] l

theorem mem_of_mem_drop_duplicates {key} {l : List MatchEntry} {e : MatchEntry}
    (h : e ∈ drop_duplicates key l) : e ∈ l :=
  (drop_duplicates_sublist key l).mem h

/-- Keys of the output of dropDupSeen avoid seen and are pairwise
distinct. -/
theorem dropDupSeen_keys (key) :
    ∀ (l : List MatchEntry) (seen : List (Option String)),
      (∀ e ∈ dropDupSeen key seen l, key e ∉ seen) ∧
      ((dropDupSeen key seen l).map key).Nodup := by
  intro l
  induction l with
  | nil => intro seen; simp [dropDupSeen]
  | cons e rest ih =>
    intro seen
    by_cases hseen : key e ∈ seen
    · simpa only [dropDupSeen, if_pos hseen] using ih seen
    · simp only [dropDupSeen, if_neg hseen]
      refine ⟨?_, ?_⟩
      · intro f hf
        rcases List.mem_cons.mp hf with hf | hf
        · rw [hf]; exact hseen
        · intro hmem
          exact (ih (key e :: seen)).1 f hf (by simp [hmem])
      · simp only [List.map_cons, List.nodup_cons]
        refine ⟨?_, (ih (key e :: seen)).2⟩
        intro hmem
        rcases List.mem_map.mp hmem with ⟨f, hf, hkf⟩
        exact (ih (key e :: seen)).1 f hf (by simp [hkf])

theorem drop_duplicates_keys_nodup (key) (l : List MatchEntry) :
    ((drop_duplicates key l).map key).Nodup :=
  (dropDupSeen_keys key l []).2

/-- Every key value occurring in the input still occurs after
drop_duplicates (as long as it is not in the seen set). -/
theorem dropDupSeen_keys_mem (key) :
    ∀ (l : List MatchEntry) (seen : List (Option String)) (k : Option String),
      k ∈ l.map key → k ∉ seen → k ∈ (dropDupSeen key seen l).map key := by
  intro l
  induction l with
  | nil => simp
  | cons e rest ih =>
    intro seen k hk hks
    simp only [List.map_cons, List.mem_cons] at hk
    simp only [dropDupSeen]
    split
    · rcases hk with hk | hk
      · exact absurd (hk ▸ (by assumption)) hks
      · exact ih seen k hk hks
    · rcases hk with hk | hk
      · simp [hk]
      · by_cases hkk : k = key e
        · simp [hkk]
        · simpa using Or.inr (ih (key e :: seen) k hk (by simp [hks, hkk]))

theorem drop_duplicates_keys_mem_iff (key) (l : List MatchEntry) (k : Option String) :
    k ∈ (drop_duplicates key l).map key ↔ k ∈ l.map key := by
  constructor
  · intro h
    rcases List.mem_map.mp h with ⟨e, he, hk⟩
    exact hk ▸ List.mem_map_of_mem key (mem_of_mem_drop_duplicates he)
  · intro h
    exact dropDupSeen_keys_mem key l [] k h (by simp)

/-- Nodup keys bound the count of rows with any given key by one. -/
theorem countP_key_le_one (key : MatchEntry → Option String) :
    ∀ l : List MatchEntry, (l.map key).Nodup → ∀ k : Option String,
      l.countP (fun e => key e = k) ≤ 1 := by
  intro l
  induction l with
  | nil => simp
  | cons e rest ih =>
    intro h k
    simp only [List.map_cons, List.nodup_cons] at h
    rw [List.countP_cons]
    by_cases hk : key e = k
    · have hzero : rest.countP (fun e => key e = k) = 0 := by
        rw [List.countP_eq_zero]
        intro f hf
        simp only [decide_eq_true_eq]
        intro hkf
        exact h.1 (by rw [hk, ← hkf]; exact List.mem_map_of_mem key hf)
      simp [hzero, hk]
    · have := ih h.2 k
      simp only [hk, decide_eq_true_eq, if_false]
      omega

/-- Exact count of rows with a given key after drop_duplicates: one when
the key occurs in the input, zero otherwise. -/
theorem drop_duplicates_countP (key) (l : List MatchEntry) (k : Option String) :
    (drop_duplicates key l).countP (fun e => key e = k) =
      if k ∈ l.map key then 1 else 0 := by
  by_cases hk : k ∈ l.map key
  · simp only [hk, if_true]
    have hmem : k ∈ (drop_duplicates key l).map key :=
      (drop_duplicates_keys_mem_iff key l k).mpr hk
    rcases List.mem_map.mp hmem with ⟨e, he, hke⟩
    have hpos : 0 < (drop_duplicates key l).countP (fun e => key e = k) := by
      rw [List.countP_pos_iff]
      exact ⟨e, he, by simp [hke]⟩
    have hle := countP_key_le_one key (drop_duplicates key l)
      (drop_duplicates_keys_nodup key l) k
    omega
  · simp only [hk, if_false]
    rw [List.countP_eq_zero]
    intro e he
    simp only [decide_eq_true_eq]
    intro hke
    exact hk (hke ▸ List.mem_map_of_mem key (mem_of_mem_drop_duplicates he))

/-- Clamping through the two-phase clip keeps min <= max when the clip
window is well formed. -/
theorem clip_pair_le {x y : ℚ} (hxy : x ≤ y) (lo hi : Option ℚ)
    (hok : clip_ok (lo, hi)) : omax (omin x hi) lo ≤ omin (omax y lo) hi := by
  cases lo with
  | none =>
    cases hi with
    | none => simpa [omax, omin] using hxy
    | some h => simp only [omax, omin]; exact min_le_min hxy (le_refl h)
  | some l =>
    cases hi with
    | none => simp only [omax, omin]; exact max_le_max hxy (le_refl l)
    | some h =>
      simp only [clip_ok] at hok
      simp only [omax, omin]
      refine max_le (le_min ?_ ?_) (le_min ?_ hok)
      · exact le_trans (min_le_left x h) (le_trans hxy (le_max_left y l))
      · exact min_le_right x h
      · exact le_max_right y l

/-- Order of corners is preserved by clipping a non-inverted box. -/
theorem clipped_box_ordered (center size : ℚ × ℚ) (clip_x clip_y : ClipPair)
    (hx : clip_ok clip_x) (hy : clip_ok clip_y)
    (hw : 0 ≤ size.1) (hh : 0 ≤ size.2) :
    (clipped_box center size clip_x clip_y).x_min ≤
      (clipped_box center size clip_x clip_y).x_max ∧
    (clipped_box center size clip_x clip_y).y_min ≤
      (clipped_box center size clip_x clip_y).y_max := by
  have hx0 : (convert_coords center size).x_min ≤ (convert_coords center size).x_max := by
    simp only [convert_coords]
    nlinarith
  have hy0 : (convert_coords center size).y_min ≤ (convert_coords center size).y_max := by
    simp only [convert_coords]
    nlinarith
  constructor
  · exact clip_pair_le hx0 clip_x.1 clip_x.2 (by rcases clip_x with ⟨a, b⟩; exact hx)
  · exact clip_pair_le hy0 clip_y.1 clip_y.2 (by rcases clip_y with ⟨a, b⟩; exact hy)

/-- Intersection area is nonnegative and bounded by each ordered box
area. -/
theorem inter_area_bounds (c1 c2 : Corners)
    (h1x : c1.x_min ≤ c1.x_max) (h1y : c1.y_min ≤ c1.y_max)
    (h2x : c2.x_min ≤ c2.x_max) (h2y : c2.y_min ≤ c2.y_max) :
    0 ≤ inter_area c1 c2 ∧ inter_area c1 c2 ≤ box_area c1 ∧
      inter_area c1 c2 ≤ box_area c2 := by
  have hw1 : max 0 (min c1.x_max c2.x_max - max c1.x_min c2.x_min) ≤ c1.x_max - c1.x_min := by
    apply max_le (by linarith)
    have := min_le_left c1.x_max c2.x_max
    have := le_max_left c1.x_min c2.x_min
    linarith
  have hw2 : max 0 (min c1.x_max c2.x_max - max c1.x_min c2.x_min) ≤ c2.x_max - c2.x_min := by
    apply max_le (by linarith)
    have := min_le_right c1.x_max c2.x_max
    have := le_max_right c1.x_min c2.x_min
    linarith
  have hh1 : max 0 (min c1.y_max c2.y_max - max c1.y_min c2.y_min) ≤ c1.y_max - c1.y_min := by
    apply max_le (by linarith)
    have := min_le_left c1.y_max c2.y_max
    have := le_max_left c1.y_min c2.y_min
    linarith
  have hh2 : max 0 (min c1.y_max c2.y_max - max c1.y_min c2.y_min) ≤ c2.y_max - c2.y_min := by
    apply max_le (by linarith)
    have := min_le_right c1.y_max c2.y_max
    have := le_max_right c1.y_min c2.y_min
    linarith
  have hnn1 : (0:ℚ) ≤ max 0 (min c1.x_max c2.x_max - max c1.x_min c2.x_min) := le_max_left _ _
  have hnn2 : (0:ℚ) ≤ max 0 (min c1.y_max c2.y_max - max c1.y_min c2.y_min) := le_max_left _ _
  refine ⟨mul_nonneg hnn1 hnn2, ?_, ?_⟩
  · exact mul_le_mul hw1 hh1 hnn2 (by linarith)
  · exact mul_le_mul hw2 hh2 hnn2 (by linarith)

/-- C7: for boxes with nonneg sizes under a well-formed clip window the
IoU denominator is strictly positive (so the division is well defined),
the IoU lies in [0, 1+eps], and two zero-area boxes give IoU exactly 0
rather than a division error. -/
theorem compute_iou_bounds (center1 size1 center2 size2 : ℚ × ℚ)
    (clip_x clip_y : ClipPair) (eps : ℚ)
    (hx : clip_ok clip_x) (hy : clip_ok clip_y) (heps : 0 < eps)
    (h1 : 0 ≤ size1.1) (h2 : 0 ≤ size1.2) (h3 : 0 ≤ size2.1) (h4 : 0 ≤ size2.2) :
    0 < box_area (clipped_box center1 size1 clip_x clip_y) +
        box_area (clipped_box center2 size2 clip_x clip_y) -
        inter_area (clipped_box center1 size1 clip_x clip_y)
          (clipped_box center2 size2 clip_x clip_y) + eps ∧
    0 ≤ compute_iou center1 size1 center2 size2 clip_x clip_y eps ∧
    compute_iou center1 size1 center2 size2 clip_x clip_y eps ≤ 1 + eps ∧
    (box_area (clipped_box center1 size1 clip_x clip_y) = 0 →
      box_area (clipped_box center2 size2 clip_x clip_y) = 0 →
      compute_iou center1 size1 center2 size2 clip_x clip_y eps = 0) := by
  obtain ⟨h1x, h1y⟩ := clipped_box_ordered center1 size1 clip_x clip_y hx hy h1 h2
  obtain ⟨h2x, h2y⟩ := clipped_box_ordered center2 size2 clip_x clip_y hx hy h3 h4
  obtain ⟨hinn, hle1, hle2⟩ :=
    inter_area_bounds (clipped_box center1 size1 clip_x clip_y)
      (clipped_box center2 size2 clip_x clip_y) h1x h1y h2x h2y
  have hdef : compute_iou center1 size1 center2 size2 clip_x clip_y eps =
      inter_area (clipped_box center1 size1 clip_x clip_y)
        (clipped_box center2 size2 clip_x clip_y) /
      (box_area (clipped_box center1 size1 clip_x clip_y) +
        box_area (clipped_box center2 size2 clip_x clip_y) -
        inter_area (clipped_box center1 size1 clip_x clip_y)
          (clipped_box center2 size2 clip_x clip_y) + eps) := rfl
  have hdenom : 0 < box_area (clipped_box center1 size1 clip_x clip_y) +
      box_area (clipped_box center2 size2 clip_x clip_y) -
      inter_area (clipped_box center1 size1 clip_x clip_y)
        (clipped_box center2 size2 clip_x clip_y) + eps := by linarith
  refine ⟨hdenom, ?_, ?_, ?_⟩
  · rw [hdef]
    exact div_nonneg hinn (le_of_lt hdenom)
  · rw [hdef]
    have hnum : inter_area (clipped_box center1 size1 clip_x clip_y)
        (clipped_box center2 size2 clip_x clip_y) ≤
        box_area (clipped_box center1 size1 clip_x clip_y) +
        box_area (clipped_box center2 size2 clip_x clip_y) -
        inter_area (clipped_box center1 size1 clip_x clip_y)
          (clipped_box center2 size2 clip_x clip_y) + eps := by linarith
    have := (div_le_one hdenom).mpr hnum
    linarith
  · intro hz1 hz2
    rw [hdef]
    have : inter_area (clipped_box center1 size1 clip_x clip_y)
        (clipped_box center2 size2 clip_x clip_y) = 0 := by
      rw [hz1] at hle1
      linarith
    rw [this, zero_div]

/-- Witness for compute_iou_bounds at a concrete full-overlap box pair
with the default epsilon and an unbounded clip window. -/
theorem compute_iou_bounds_witness :
    (clip_ok ((none, none) : ClipPair) ∧ clip_ok ((none, none) : ClipPair) ∧
      (0:ℚ) < default_eps ∧ (0:ℚ) ≤ 100 ∧ (0:ℚ) ≤ 100) ∧
    0 ≤ compute_iou (960, 540) (100, 100) (960, 540) (100, 100)
        (none, none) (none, none) default_eps ∧
    compute_iou (960, 540) (100, 100) (960, 540) (100, 100)
        (none, none) (none, none) default_eps ≤ 1 + default_eps := by
  have heps : (0:ℚ) < default_eps := by norm_num [default_eps]
  have h := compute_iou_bounds (960, 540) (100, 100) (960, 540) (100, 100)
    (none, none) (none, none) default_eps trivial trivial heps
    (by norm_num) (by norm_num) (by norm_num) (by norm_num)
  exact ⟨⟨trivial, trivial, heps, by norm_num, by norm_num⟩, h.2.1, h.2.2.1⟩

/-- Successful construction resolves the clip window from the kwargs and
the clip_truncated_boxes flag. -/
theorem box_correlator_init_ok (threshold : ℚ) (matching_type : String)
    (ctb : Bool) (kx ky : Option ClipPair)
    (h : matching_type = "complete" ∨ matching_type = "exclusive") :
    box_correlator_init threshold matching_type ctb kx ky =
      Except.ok ⟨threshold, matching_type, ctb,
        (if ctb then kx.getD (some 0, some 1920) else (none, none)),
        (if ctb then ky.getD (some 0, some 1280) else (none, none))⟩ := by
  rcases h with h | h <;> subst h <;> cases ctb <;> cases kx <;> cases ky <;>
    simp [box_correlator_init, Option.getD]

/-- Failing construction yields the fixed error message. -/
theorem box_correlator_init_err (threshold : ℚ) (matching_type : String)
    (ctb : Bool) (kx ky : Option ClipPair)
    (h : ¬(matching_type = "complete" ∨ matching_type = "exclusive")) :
    box_correlator_init threshold matching_type ctb kx ky =
      Except.error "Unknown matching_type in Correlator encountered." := by
  simp only [box_correlator_init]
  rw [if_neg h]

/-- C8: construction succeeds exactly for the two known matching types,
and any other value yields the construction-time error (never a silent
fallback). -/
theorem box_correlator_init_matching_type (threshold : ℚ) (matching_type : String)
    (ctb : Bool) (kx ky : Option ClipPair) :
    ((∃ cfg, box_correlator_init threshold matching_type ctb kx ky = Except.ok cfg) ↔
      matching_type = "complete" ∨ matching_type = "exclusive") ∧
    (¬(matching_type = "complete" ∨ matching_type = "exclusive") ↔
      box_correlator_init threshold matching_type ctb kx ky =
        Except.error "Unknown matching_type in Correlator encountered.") := by
  by_cases h : matching_type = "complete" ∨ matching_type = "exclusive"
  · refine ⟨?_, ?_⟩
    · simp only [h, iff_true]
      exact ⟨_, box_correlator_init_ok threshold matching_type ctb kx ky h⟩
    · simp only [h, not_true_eq_false, false_iff]
      rw [box_correlator_init_ok threshold matching_type ctb kx ky h]
      simp
  · refine ⟨?_, ?_⟩
    · simp only [h, iff_false, not_exists]
      intro cfg
      rw [box_correlator_init_err threshold matching_type ctb kx ky h]
      simp
    · simp only [h, not_false_eq_true, true_iff]
      exact box_correlator_init_err threshold matching_type ctb kx ky h

/-- Counterexample to C5 as stated: an explicitly supplied clip rectangle
(0, 100) is discarded when clip_truncated_boxes is false; the stored clip
window is unbounded instead. -/
theorem box_correlator_init_clip_ignored :
    box_correlator_init (1/2) "complete" false (some (some 0, some 100)) none =
      Except.ok ⟨1/2, "complete", false, (none, none), (none, none)⟩ ∧
    ((none, none) : ClipPair) ≠ ((some 0, some 100) : ClipPair) := by
  constructor
  · simp [box_correlator_init]
  · decide

/-- C5 amended: when clip_truncated_boxes is true the clip window is the
explicitly supplied rectangle, defaulting to (0, 1920) by (0, 1280) when
none is supplied; when clip_truncated_boxes is false the window is
always unbounded, even if a rectangle was supplied. -/
theorem box_correlator_init_clip (threshold : ℚ) (matching_type : String)
    (ctb : Bool) (kx ky : Option ClipPair) (cfg : BoxCorrelatorConfig)
    (h : box_correlator_init threshold matching_type ctb kx ky = Except.ok cfg) :
    cfg.clip_x = (if ctb then kx.getD (some 0, some 1920) else (none, none)) ∧
    cfg.clip_y = (if ctb then ky.getD (some 0, some 1280) else (none, none)) := by
  by_cases hmt : matching_type = "complete" ∨ matching_type = "exclusive"
  · rw [box_correlator_init_ok threshold matching_type ctb kx ky hmt] at h
    rcases Except.ok.inj h with rfl
    exact ⟨rfl, rfl⟩
  · rw [box_correlator_init_err threshold matching_type ctb kx ky hmt] at h
    exact absurd h (by simp)

/-- Witness for box_correlator_init_clip with an explicit rectangle and
clipping enabled. -/
theorem box_correlator_init_clip_witness :
    box_correlator_init (1/2) "exclusive" true (some (some 5, some 50)) none =
      Except.ok ⟨1/2, "exclusive", true, (some 5, some 50), (some 0, some 1280)⟩ ∧
    (⟨1/2, "exclusive", true, (some 5, some 50), (some 0, some 1280)⟩ :
        BoxCorrelatorConfig).clip_x =
      (if true then (some (some 5, some 50) : Option ClipPair).getD (some 0, some 1920)
        else (none, none)) := by
  have hinit : box_correlator_init (1/2) "exclusive" true (some (some 5, some 50)) none =
      Except.ok ⟨1/2, "exclusive", true, (some 5, some 50), (some 0, some 1280)⟩ := by
    simp [box_correlator_init]
  exact ⟨hinit, (box_correlator_init_clip (1/2) "exclusive" true
    (some (some 5, some 50)) none _ hinit).1⟩

/-- Characterization of the boolean oge in terms of its rational
content. -/
theorem oge_iff (x : Val) (t : ℚ) : oge x t = true ↔ ∃ v, x = some v ∧ t ≤ v := by
  cases x <;> simp [oge]

/-- Characterization of the boolean olt in terms of its rational
content. -/
theorem olt_iff (x : Val) (t : ℚ) : olt x t = true ↔ ∃ v, x = some v ∧ v < t := by
  cases x <;> simp [olt]

/-- Shape of the tp entries of the complete policy: each comes from a
slice pair whose criterion value meets the threshold. -/
theorem match_boxes_complete_tp (annotations_cls : List AnnRow)
    (detections_cls : List DetRow) (criterion : Criterion) (threshold : ℚ) :
    ∀ e ∈ (match_boxes_complete annotations_cls detections_cls criterion threshold).1,
      ∃ a ∈ annotations_cls, ∃ d ∈ detections_cls, ∃ v : ℚ,
        criterion d.center d.size a.center a.size = some v ∧ threshold ≤ v ∧
        e = build_matching_entry a.sample_name (some a.index) (some d.index) "tp"
          a.class_id (some v) (some d.confidence) := by
  intro e he
  simp only [match_boxes_complete, List.mem_flatMap, List.mem_filterMap] at he
  obtain ⟨d, hd, a, ha, hsome⟩ := he
  by_cases hcond : oge (criterion d.center d.size a.center a.size) threshold = true
  · rw [if_pos hcond] at hsome
    obtain ⟨v, hv, hle⟩ := (oge_iff _ _).mp hcond
    refine ⟨a, ha, d, hd, v, hv, hle, ?_⟩
    rw [← Option.some.inj hsome, hv]
  · rw [if_neg hcond] at hsome
    exact absurd hsome (by simp)

/-- Matched id lists of the complete policy are exactly the ids of its
tp entries. -/
theorem match_boxes_complete_ids (annotations_cls : List AnnRow)
    (detections_cls : List DetRow) (criterion : Criterion) (threshold : ℚ) :
    (∀ i : String,
      i ∈ (match_boxes_complete annotations_cls detections_cls criterion threshold).2.1 ↔
      ∃ e ∈ (match_boxes_complete annotations_cls detections_cls criterion threshold).1,
        e.annotation_index = some i) ∧
    (∀ i : String,
      i ∈ (match_boxes_complete annotations_cls detections_cls criterion threshold).2.2 ↔
      ∃ e ∈ (match_boxes_complete annotations_cls detections_cls criterion threshold).1,
        e.detection_index = some i) := by
  constructor <;> intro i <;>
    simp [match_boxes_complete, List.mem_dedup, List.mem_filterMap]

theorem bestInv_step (det : DetRow) (criterion : Criterion)
    (processed : List AnnRow) (acc : Option (ℚ × AnnRow)) (x : AnnRow)
    (h : BestInv det criterion processed acc) :
    BestInv det criterion (processed ++ [x]) (best_step det criterion acc x) := by
  unfold best_step
  cases hc : criterion det.center det.size x.center x.size with
  | none =>
    cases acc with
    | none =>
      simp only [BestInv] at h ⊢
      intro b hb
      rcases List.mem_append.mp hb with hb | hb
      · exact h b hb
      · rw [List.mem_singleton.mp hb]; exact hc
    | some va =>
      rcases va with ⟨v, a⟩
      simp only [BestInv] at h ⊢
      obtain ⟨⟨l1, l2, hsplit, hca, hlt⟩, hall⟩ := h
      refine ⟨⟨l1, l2 ++ [x], by rw [hsplit]; simp, hca, hlt⟩, ?_⟩
      intro b hb w hw
      rcases List.mem_append.mp hb with hb | hb
      · exact hall b hb w hw
      · rw [List.mem_singleton.mp hb] at hw
        rw [hc] at hw
        exact absurd hw (by simp)
  | some w =>
    cases acc with
    | none =>
      simp only [BestInv] at h ⊢
      refine ⟨⟨processed, [], rfl, hc, ?_⟩, ?_⟩
      · intro b hb w2 hw2
        rw [h b hb] at hw2
        exact absurd hw2 (by simp)
      · intro b hb w2 hw2
        rcases List.mem_append.mp hb with hb | hb
        · rw [h b hb] at hw2
          exact absurd hw2 (by simp)
        · rw [List.mem_singleton.mp hb] at hw2
          rw [hc] at hw2
          linarith [Option.some.inj hw2]
    | some va =>
      rcases va with ⟨v, a⟩
      simp only [BestInv] at h ⊢
      obtain ⟨⟨l1, l2, hsplit, hca, hlt⟩, hall⟩ := h
      by_cases hvw : v < w
      · rw [if_pos hvw]
        refine ⟨⟨processed, [], rfl, hc, ?_⟩, ?_⟩
        · intro b hb w2 hw2
          exact lt_of_le_of_lt (hall b hb w2 hw2) hvw
        · intro b hb w2 hw2
          rcases List.mem_append.mp hb with hb | hb
          · exact le_of_lt (lt_of_le_of_lt (hall b hb w2 hw2) hvw)
          · rw [List.mem_singleton.mp hb] at hw2
            rw [hc] at hw2
            linarith [Option.some.inj hw2]
      · rw [if_neg hvw]
        refine ⟨⟨l1, l2 ++ [x], by rw [hsplit]; simp, hca, hlt⟩, ?_⟩
        intro b hb w2 hw2
        rcases List.mem_append.mp hb with hb | hb
        · exact hall b hb w2 hw2
        · rw [List.mem_singleton.mp hb] at hw2
          rw [hc] at hw2
          have hvle := le_of_not_lt hvw
          linarith [Option.some.inj hw2]

theorem bestInv_foldl (det : DetRow) (criterion : Criterion) :
    ∀ (l processed : List AnnRow) (acc : Option (ℚ × AnnRow)),
      BestInv det criterion processed acc →
      BestInv det criterion (processed ++ l)
        (l.foldl (best_step det criterion) acc) := by
  intro l
  induction l with
  | nil => intro processed acc h; simpa using h
  | cons x rest ih =>
    intro processed acc h
    have h2 := bestInv_step det criterion processed acc x h
    have h3 := ih (processed ++ [x]) (best_step det criterion acc x) h2
    simpa [List.append_assoc] using h3

theorem bestAnn_inv (det : DetRow) (criterion : Criterion)
    (annotations_cls : List AnnRow) :
    BestInv det criterion annotations_cls (bestAnn det criterion annotations_cls) := by
  have h := bestInv_foldl det criterion annotations_cls [] none (by simp [BestInv])
  simpa [bestAnn] using h

/-- Specification of bestAnn when it returns a maximum: the annotation
is in the slice, attains the returned value, all rows before it in
iteration order are strictly below, and no row exceeds it. -/
theorem bestAnn_spec (det : DetRow) (criterion : Criterion)
    (annotations_cls : List AnnRow) (v : ℚ) (a : AnnRow)
    (h : bestAnn det criterion annotations_cls = some (v, a)) :
    (∃ l1 l2, annotations_cls = l1 ++ a :: l2 ∧
      criterion det.center det.size a.center a.size = some v ∧
      ∀ b ∈ l1, ∀ w, criterion det.center det.size b.center b.size = some w → w < v) ∧
    ∀ b ∈ annotations_cls, ∀ w,
      criterion det.center det.size b.center b.size = some w → w ≤ v := by
  have hinv := bestAnn_inv det criterion annotations_cls
  rw [h] at hinv
  exact hinv

/-- Membership form of bestAnn_spec. -/
theorem bestAnn_mem (det : DetRow) (criterion : Criterion)
    (annotations_cls : List AnnRow) (v : ℚ) (a : AnnRow)
    (h : bestAnn det criterion annotations_cls = some (v, a)) :
    a ∈ annotations_cls ∧
      criterion det.center det.size a.center a.size = some v := by
  obtain ⟨⟨l1, l2, hsplit, hca, _⟩, _⟩ := bestAnn_spec det criterion annotations_cls v a h
  exact ⟨by rw [hsplit]; simp, hca⟩

/-- If bestAnn finds nothing, every criterion value of the slice was
NaN. -/
theorem bestAnn_none (det : DetRow) (criterion : Criterion)
    (annotations_cls : List AnnRow)
    (h : bestAnn det criterion annotations_cls = none) :
    ∀ b ∈ annotations_cls, criterion det.center det.size b.center b.size = none := by
  have hinv := bestAnn_inv det criterion annotations_cls
  rw [h] at hinv
  exact hinv

theorem exclInv_step (annotations_cls : List AnnRow) (criterion : Criterion)
    (threshold : ℚ) (processed : List DetRow) (st : MatchResult) (det : DetRow)
    (h : ExclInv annotations_cls criterion threshold processed st) :
    ExclInv annotations_cls criterion threshold (processed ++ [det])
      (exclusive_step annotations_cls criterion threshold st det) := by
  obtain ⟨h1, h2, h3⟩ := h
  have hmono : ∀ st2 : MatchResult, st2 = st →
      ExclInv annotations_cls criterion threshold (processed ++ [det]) st2 := by
    intro st2 hst
    subst hst
    refine ⟨?_, h2, h3⟩
    intro e he
    obtain ⟨a, ha, d, hd, v, hbv, hle, hee⟩ := h1 e he
    exact ⟨a, ha, d, List.mem_append_left _ hd, v, hbv, hle, hee⟩
  unfold exclusive_step
  cases hb : bestAnn det criterion annotations_cls with
  | none => exact hmono st rfl
  | some pv =>
    rcases pv with ⟨v, ann⟩
    dsimp only
    by_cases hcond : threshold ≤ v ∧ ann.index ∉ st.2.1
    · rw [if_pos hcond]
      refine ⟨?_, ?_, ?_⟩
      · intro e he
        rcases List.mem_append.mp he with he | he
        · obtain ⟨a, ha, d, hd, v2, hbv, hle2, hee⟩ := h1 e he
          exact ⟨a, ha, d, List.mem_append_left _ hd, v2, hbv, hle2, hee⟩
        · rw [List.mem_singleton.mp he]
          obtain ⟨hamem, _⟩ := bestAnn_mem det criterion annotations_cls v ann hb
          exact ⟨ann, hamem, det, List.mem_append_right _ (by simp), v, hb,
            hcond.1, rfl⟩
      · intro i
        constructor
        · intro hi
          rcases List.mem_append.mp hi with hi | hi
          · obtain ⟨e, he, hei⟩ := (h2 i).mp hi
            exact ⟨e, List.mem_append_left _ he, hei⟩
          · rw [List.mem_singleton.mp hi]
            exact ⟨build_matching_entry ann.sample_name (some ann.index)
              (some det.index) "tp" ann.class_id (some v) (some det.confidence),
              List.mem_append_right _ (by simp), rfl⟩
        · rintro ⟨e, he, hei⟩
          rcases List.mem_append.mp he with he | he
          · exact List.mem_append_left _ ((h2 i).mpr ⟨e, he, hei⟩)
          · rw [List.mem_singleton.mp he] at hei
            simp only [build_matching_entry] at hei
            rcases Option.some.inj hei with rfl
            exact List.mem_append_right _ (by simp)
      · intro i
        constructor
        · intro hi
          rcases List.mem_append.mp hi with hi | hi
          · obtain ⟨e, he, hei⟩ := (h3 i).mp hi
            exact ⟨e, List.mem_append_left _ he, hei⟩
          · rw [List.mem_singleton.mp hi]
            exact ⟨build_matching_entry ann.sample_name (some ann.index)
              (some det.index) "tp" ann.class_id (some v) (some det.confidence),
              List.mem_append_right _ (by simp), rfl⟩
        · rintro ⟨e, he, hei⟩
          rcases List.mem_append.mp he with he | he
          · exact List.mem_append_left _ ((h3 i).mpr ⟨e, he, hei⟩)
          · rw [List.mem_singleton.mp he] at hei
            simp only [build_matching_entry] at hei
            rcases Option.some.inj hei with rfl
            exact List.mem_append_right _ (by simp)
    · rw [if_neg hcond]
      exact hmono st rfl

theorem exclInv_foldl (annotations_cls : List AnnRow) (criterion : Criterion)
    (threshold : ℚ) :
    ∀ (l processed : List DetRow) (st : MatchResult),
      ExclInv annotations_cls criterion threshold processed st →
      ExclInv annotations_cls criterion threshold (processed ++ l)
        (l.foldl (exclusive_step annotations_cls criterion threshold) st) := by
  intro l
  induction l with
  | nil => intro processed st h; simpa using h
  | cons x rest ih =>
    intro processed st h
    have h2 := exclInv_step annotations_cls criterion threshold processed st x h
    have h3 := ih (processed ++ [x])
      (exclusive_step annotations_cls criterion threshold st x) h2
    simpa [List.append_assoc] using h3

theorem match_boxes_exclusive_inv (annotations_cls : List AnnRow)
    (detections_cls : List DetRow) (criterion : Criterion) (threshold : ℚ) :
    ExclInv annotations_cls criterion threshold (sort_detections detections_cls)
      (match_boxes_exclusive annotations_cls detections_cls criterion threshold) := by
  have h := exclInv_foldl annotations_cls criterion threshold
    (sort_detections detections_cls) [] ([], [], []) (by
      refine ⟨?_, ?_, ?_⟩ <;> simp [ExclInv])
  simpa [match_boxes_exclusive] using h

/-- Shape of the tp entries of either policy: each references an
annotation row and a detection row of the slice and carries a criterion
value at least the threshold, the detection's confidence, the confusion
tag tp, and the annotation row's sample and class. -/
theorem match_boxes_tp (mt : MatchingType) (annotations_cls : List AnnRow)
    (detections_cls : List DetRow) (criterion : Criterion) (threshold : ℚ) :
    ∀ e ∈ (match_boxes mt annotations_cls detections_cls criterion threshold).1,
      ∃ a ∈ annotations_cls, ∃ d ∈ detections_cls, ∃ v : ℚ, threshold ≤ v ∧
        e = build_matching_entry a.sample_name (some a.index) (some d.index) "tp"
          a.class_id (some v) (some d.confidence) := by
  intro e he
  cases mt with
  | complete =>
    obtain ⟨a, ha, d, hd, v, _, hle, hee⟩ :=
      match_boxes_complete_tp annotations_cls detections_cls criterion threshold e he
    exact ⟨a, ha, d, hd, v, hle, hee⟩
  | exclusive =>
    obtain ⟨h1, _, _⟩ :=
      match_boxes_exclusive_inv annotations_cls detections_cls criterion threshold
    obtain ⟨a, ha, d, hd, v, _, hle, hee⟩ := h1 e he
    have hdmem : d ∈ detections_cls :=
      (List.perm_insertionSort det_conf_ge detections_cls).mem_iff.mp hd
    exact ⟨a, ha, d, hdmem, v, hle, hee⟩

/-- The matched id lists of either policy are exactly the ids referenced
by its tp entries. -/
theorem match_boxes_ids (mt : MatchingType) (annotations_cls : List AnnRow)
    (detections_cls : List DetRow) (criterion : Criterion) (threshold : ℚ) :
    (∀ i : String,
      i ∈ (match_boxes mt annotations_cls detections_cls criterion threshold).2.1 ↔
      ∃ e ∈ (match_boxes mt annotations_cls detections_cls criterion threshold).1,
        e.annotation_index = some i) ∧
    (∀ i : String,
      i ∈ (match_boxes mt annotations_cls detections_cls criterion threshold).2.2 ↔
      ∃ e ∈ (match_boxes mt annotations_cls detections_cls criterion threshold).1,
        e.detection_index = some i) := by
  cases mt with
  | complete =>
    exact match_boxes_complete_ids annotations_cls detections_cls criterion threshold
  | exclusive =>
    obtain ⟨_, h2, h3⟩ :=
      match_boxes_exclusive_inv annotations_cls detections_cls criterion threshold
    exact ⟨h2, h3⟩

/-! Generic bookkeeping lemmas about the sorting and per-sample
partitioning shared by the three table rewriters. -/

theorem sortStr_perm (l : List String) : (sortStr l).Perm l :=
  List.perm_insertionSort _ l

theorem sort_tp_perm (l : List MatchEntry) : (sort_tp l).Perm l :=
  List.perm_insertionSort _ l

theorem sort_out_perm (b : Bool) (l : List MatchEntry) : (sort_out b l).Perm l := by
  cases b with
  | false => exact List.Perm.refl l
  | true => exact List.perm_insertionSort _ l

theorem sample_names_nodup (m : List MatchEntry) : (sample_names_of m).Nodup := by
  unfold sample_names_of
  exact (sortStr_perm _).nodup_iff.mpr (List.nodup_dedup _)

theorem mem_sample_names (m : List MatchEntry) (s : String) :
    s ∈ sample_names_of m ↔ s ∈ m.map (fun r => r.sample_name) := by
  unfold sample_names_of
  rw [(sortStr_perm _).mem_iff, List.mem_dedup]

theorem sample_name_mem_sample_names {m : List MatchEntry} {e : MatchEntry}
    (h : e ∈ m) : e.sample_name ∈ sample_names_of m :=
  (mem_sample_names m e.sample_name).mpr
    (List.mem_map_of_mem (fun r => r.sample_name) h)

theorem count_filter_ite (p : MatchEntry → Bool) (l : List MatchEntry)
    (e : MatchEntry) :
    (l.filter p).count e = if p e = true then l.count e else 0 := by
  by_cases hp : p e = true
  · rw [if_pos hp, List.count_filter hp]
  · rw [if_neg hp, List.count_eq_zero]
    intro hmem
    exact hp (List.mem_filter.mp hmem).2

theorem sum_map_ite (c : ℕ) (a : String) :
    ∀ names : List String, names.Nodup →
      (names.map (fun s => if a = s then c else 0)).sum =
        if a ∈ names then c else 0 := by
  intro names
  induction names with
  | nil => simp
  | cons s rest ih =>
    intro hnd
    rw [List.nodup_cons] at hnd
    simp only [List.map_cons, List.sum_cons]
    by_cases has : a = s
    · subst has
      have hz : (rest.map (fun s => if a = s then c else 0)).sum = 0 := by
        apply List.sum_eq_zero
        intro x hx
        rcases List.mem_map.mp hx with ⟨s2, hs2, hxs⟩
        have : ¬(a = s2) := fun hh => hnd.1 (hh ▸ hs2)
        rw [← hxs, if_neg this]
      rw [if_pos rfl, hz, if_pos (List.mem_cons_self a rest)]
      omega
    · rw [if_neg has, ih hnd.2]
      have : (a ∈ s :: rest) ↔ (a ∈ rest) := by
        simp [List.mem_cons, has]
      by_cases har : a ∈ rest
      · rw [if_pos har, if_pos (this.mpr har)]
        simp
      · rw [if_neg har, if_neg (fun hh => har (this.mp hh))]

theorem sum_map_add (f g : String → ℕ) :
    ∀ names : List String,
      (names.map (fun s => f s + g s)).sum =
        (names.map f).sum + (names.map g).sum := by
  intro names
  induction names with
  | nil => simp
  | cons s rest ih => simp only [List.map_cons, List.sum_cons, ih]; omega

/-- Perm congruence for flatMap over the same index list. -/
theorem flatMap_perm_congr (names : List String)
    (f g : String → List MatchEntry)
    (h : ∀ s ∈ names, (f s).Perm (g s)) :
    (names.flatMap f).Perm (names.flatMap g) := by
  induction names with
  | nil => exact List.Perm.refl _
  | cons s rest ih =>
    simp only [List.flatMap_cons]
    exact (h s (List.mem_cons_self s rest)).append
      (ih (fun x hx => h x (List.mem_cons_of_mem s hx)))

/-- A flatMap of concatenations is a permutation of the concatenation of
the flatMaps. -/
theorem flatMap_append_perm (names : List String)
    (f g : String → List MatchEntry) :
    (names.flatMap (fun s => f s ++ g s)).Perm
      (names.flatMap f ++ names.flatMap g) := by
  rw [List.perm_iff_count]
  intro e
  rw [List.count_flatMap, List.count_append, List.count_flatMap,
    List.count_flatMap]
  have hpt : names.map (List.count e ∘ fun s => f s ++ g s) =
      names.map (fun s => List.count e (f s) + List.count e (g s)) := by
    apply List.map_congr_left
    intro s _
    simp [List.count_append]
  rw [hpt, sum_map_add (fun s => List.count e (f s)) (fun s => List.count e (g s))]
  rfl

/-- Partition of a filtered table into its per-sample filtered parts,
over any duplicate-free sample list covering the filtered rows. -/
theorem sample_partition_perm (m : List MatchEntry) (p : MatchEntry → Bool)
    (names : List String) (hnd : names.Nodup)
    (hcov : ∀ e ∈ m, p e = true → e.sample_name ∈ names) :
    (names.flatMap (fun s =>
      (m.filter (fun r => r.sample_name = s)).filter p)).Perm
      (m.filter p) := by
  rw [List.perm_iff_count]
  intro e
  rw [List.count_flatMap]
  have hpt : names.map (List.count e ∘ fun s =>
      (m.filter (fun r => r.sample_name = s)).filter p) =
      names.map (fun s =>
        if e.sample_name = s then (if p e = true then m.count e else 0) else 0) := by
    apply List.map_congr_left
    intro s _
    simp only [Function.comp]
    rw [count_filter_ite p, count_filter_ite (fun r => r.sample_name = s)]
    by_cases hs : e.sample_name = s
    · simp [hs]
    · simp [hs]
  rw [hpt, sum_map_ite _ _ names hnd, count_filter_ite p]
  by_cases hp : p e = true
  · simp only [hp, if_true]
    by_cases hc : m.count e = 0
    · simp [hc]
    · have hmem : e ∈ m := by
        by_contra hne
        exact hc (List.count_eq_zero.mpr hne)
      rw [if_pos (hcov e hmem hp)]
  · simp [hp]

/-! Lemmas for apply_confidence_threshold (claim about keeping tp and fp
rows by confidence, dropping demoted fp silently, and deriving new fn
rows from demoted tp rows). -/

theorem mem_conf_tp_keep (m : List MatchEntry) (t : ℚ) (s : String)
    (e : MatchEntry) :
    e ∈ conf_tp_keep m t s ↔
      e ∈ m ∧ e.sample_name = s ∧ e.confusion = "tp" ∧ oge e.confidence t = true := by
  simp only [conf_tp_keep, List.mem_filter, decide_eq_true_eq]
  tauto

theorem mem_conf_tp_check (m : List MatchEntry) (t : ℚ) (s : String)
    (e : MatchEntry) :
    e ∈ conf_tp_check m t s ↔
      e ∈ m ∧ e.sample_name = s ∧ e.confusion = "tp" ∧ olt e.confidence t = true := by
  simp only [conf_tp_check, List.mem_filter, decide_eq_true_eq]
  tauto

theorem mem_conf_fp_keep (m : List MatchEntry) (t : ℚ) (s : String)
    (e : MatchEntry) :
    e ∈ conf_fp_keep m t s ↔
      e ∈ m ∧ e.sample_name = s ∧ e.confusion = "fp" ∧ oge e.confidence t = true := by
  simp only [conf_fp_keep, List.mem_filter, decide_eq_true_eq]
  tauto

theorem conf_sample_perm (m : List MatchEntry) (t : ℚ) (s : String) (b : Bool) :
    (conf_sample m t s b).Perm
      (conf_tp_keep m t s ++ conf_fp_keep m t s ++
        (m.filter (fun r => r.sample_name = s)).filter
          (fun r => r.confusion = "fn") ++
        conf_fn_update m t s) := by
  unfold conf_sample
  exact sort_out_perm b _

theorem conf_fn_update_fields (m : List MatchEntry) (t : ℚ) (s : String) :
    ∀ r ∈ conf_fn_update m t s,
      r.confusion = "fn" ∧ r.detection_index = none ∧ r.match_value = none ∧
      r.confidence = none ∧ r.sample_name = s := by
  intro r hr
  simp only [conf_fn_update, List.mem_map] at hr
  obtain ⟨r0, hr0, hmap⟩ := hr
  have hr0chk : r0 ∈ conf_tp_check m t s := by
    have := mem_of_mem_drop_duplicates hr0
    exact (List.mem_filter.mp this).1
  have hs : r0.sample_name = s := ((mem_conf_tp_check m t s r0).mp hr0chk).2.1
  rw [← hmap]
  exact ⟨rfl, rfl, rfl, rfl, hs⟩

theorem conf_fn_update_countP (m : List MatchEntry) (t : ℚ) (s : String)
    (k : Option String) :
    (conf_fn_update m t s).countP (fun r => r.annotation_index = k) =
      if k ∈ (conf_tp_check m t s).map (fun r => r.annotation_index) ∧
         k ∉ (conf_tp_keep m t s).map (fun r => r.annotation_index)
      then 1 else 0 := by
  unfold conf_fn_update
  rw [List.countP_map]
  have hcomp : ((fun r : MatchEntry => decide (r.annotation_index = k)) ∘
      (fun r : MatchEntry =>
        { r with detection_index := none, confusion := "fn", match_value := none,
                 confidence := none })) =
      fun r : MatchEntry => decide (r.annotation_index = k) := by
    funext r
    rfl
  rw [hcomp]
  rw [drop_duplicates_countP]
  have hiff : k ∈ ((conf_tp_check m t s).filter (fun r => r.annotation_index ∉
        (conf_tp_keep m t s).map (fun r2 => r2.annotation_index))).map
        (fun r => r.annotation_index) ↔
      (k ∈ (conf_tp_check m t s).map (fun r => r.annotation_index) ∧
       k ∉ (conf_tp_keep m t s).map (fun r => r.annotation_index)) := by
    constructor
    · intro h
      rcases List.mem_map.mp h with ⟨r, hr, hk⟩
      rcases List.mem_filter.mp hr with ⟨hrchk, hrnot⟩
      simp only [decide_eq_true_eq] at hrnot
      exact ⟨hk ▸ List.mem_map_of_mem _ hrchk, hk ▸ hrnot⟩
    · rintro ⟨hin, hout⟩
      rcases List.mem_map.mp hin with ⟨r, hr, hk⟩
      refine List.mem_map.mpr ⟨r, List.mem_filter.mpr ⟨hr, ?_⟩, hk⟩
      simp only [decide_eq_true_eq]
      rw [hk]
      exact hout
  by_cases hc : k ∈ (conf_tp_check m t s).map (fun r => r.annotation_index) ∧
      k ∉ (conf_tp_keep m t s).map (fun r => r.annotation_index)
  · rw [if_pos (hiff.mpr hc), if_pos hc]
  · rw [if_neg (fun hh => hc (hiff.mp hh)), if_neg hc]

theorem filter_flatMap_entries (names : List String)
    (f : String → List MatchEntry) (p : MatchEntry → Bool) :
    (names.flatMap f).filter p = names.flatMap (fun s => (f s).filter p) := by
  induction names with
  | nil => rfl
  | cons s rest ih => simp [List.flatMap_cons, List.filter_append, ih]


theorem conf_tp_keep_as_filter (m : List MatchEntry) (t : ℚ) (s : String) :
    conf_tp_keep m t s =
      (m.filter (fun r => r.sample_name = s)).filter
        (fun r => r.confusion = "tp" ∧ oge r.confidence t = true) := by
  unfold conf_tp_keep
  rw [List.filter_filter]
  apply List.filter_congr
  intro x _
  cases hog : oge x.confidence t <;> by_cases htp : x.confusion = "tp" <;>
    simp [hog, htp]

theorem conf_fp_keep_as_filter (m : List MatchEntry) (t : ℚ) (s : String) :
    conf_fp_keep m t s =
      (m.filter (fun r => r.sample_name = s)).filter
        (fun r => r.confusion = "fp" ∧ oge r.confidence t = true) := by
  unfold conf_fp_keep
  rw [List.filter_filter]
  apply List.filter_congr
  intro x _
  cases hog : oge x.confidence t <;> by_cases hfp : x.confusion = "fp" <;>
    simp [hog, hfp]

theorem conf_sample_filter_piece (m : List MatchEntry) (t : ℚ) (s : String)
    (b : Bool) :
    ((conf_sample m t s b).filter (fun r => r.confusion = "tp")).Perm
      (conf_tp_keep m t s) ∧
    ((conf_sample m t s b).filter (fun r => r.confusion = "fp")).Perm
      (conf_fp_keep m t s) ∧
    ((conf_sample m t s b).filter (fun r => r.confusion = "fn")).Perm
      ((m.filter (fun r => r.sample_name = s)).filter
        (fun r => r.confusion = "fn") ++ conf_fn_update m t s) := by
  have htpk : ∀ e ∈ conf_tp_keep m t s, e.confusion = "tp" :=
    fun e he => ((mem_conf_tp_keep m t s e).mp he).2.2.1
  have hfpk : ∀ e ∈ conf_fp_keep m t s, e.confusion = "fp" :=
    fun e he => ((mem_conf_fp_keep m t s e).mp he).2.2.1
  have hfnk : ∀ e ∈ (m.filter (fun r => r.sample_name = s)).filter
      (fun r => r.confusion = "fn"), e.confusion = "fn" := by
    intro e he
    have hfe := (List.mem_filter.mp he).2
    simpa using hfe
  have hfnu : ∀ e ∈ conf_fn_update m t s, e.confusion = "fn" :=
    fun e he => (conf_fn_update_fields m t s e he).1
  refine ⟨?_, ?_, ?_⟩
  · have h1 := (conf_sample_perm m t s b).filter (fun r => r.confusion = "tp")
    have e1 : (conf_tp_keep m t s).filter (fun r => r.confusion = "tp") =
        conf_tp_keep m t s :=
      List.filter_eq_self.mpr (fun e he => by simp [htpk e he])
    have e2 : (conf_fp_keep m t s).filter (fun r => r.confusion = "tp") = [] :=
      List.filter_eq_nil_iff.mpr (fun e he => by simp [hfpk e he])
    have e3 : ((m.filter (fun r => r.sample_name = s)).filter
        (fun r => r.confusion = "fn")).filter (fun r => r.confusion = "tp") = [] :=
      List.filter_eq_nil_iff.mpr (fun e he => by simp [hfnk e he])
    have e4 : (conf_fn_update m t s).filter (fun r => r.confusion = "tp") = [] :=
      List.filter_eq_nil_iff.mpr (fun e he => by simp [hfnu e he])
    rw [List.filter_append, List.filter_append, List.filter_append,
      e1, e2, e3, e4] at h1
    simpa using h1
  · have h1 := (conf_sample_perm m t s b).filter (fun r => r.confusion = "fp")
    have e1 : (conf_tp_keep m t s).filter (fun r => r.confusion = "fp") = [] :=
      List.filter_eq_nil_iff.mpr (fun e he => by simp [htpk e he])
    have e2 : (conf_fp_keep m t s).filter (fun r => r.confusion = "fp") =
        conf_fp_keep m t s :=
      List.filter_eq_self.mpr (fun e he => by simp [hfpk e he])
    have e3 : ((m.filter (fun r => r.sample_name = s)).filter
        (fun r => r.confusion = "fn")).filter (fun r => r.confusion = "fp") = [] :=
      List.filter_eq_nil_iff.mpr (fun e he => by simp [hfnk e he])
    have e4 : (conf_fn_update m t s).filter (fun r => r.confusion = "fp") = [] :=
      List.filter_eq_nil_iff.mpr (fun e he => by simp [hfnu e he])
    rw [List.filter_append, List.filter_append, List.filter_append,
      e1, e2, e3, e4] at h1
    simpa using h1
  · have h1 := (conf_sample_perm m t s b).filter (fun r => r.confusion = "fn")
    have e1 : (conf_tp_keep m t s).filter (fun r => r.confusion = "fn") = [] :=
      List.filter_eq_nil_iff.mpr (fun e he => by simp [htpk e he])
    have e2 : (conf_fp_keep m t s).filter (fun r => r.confusion = "fn") = [] :=
      List.filter_eq_nil_iff.mpr (fun e he => by simp [hfpk e he])
    have e3 : ((m.filter (fun r => r.sample_name = s)).filter
        (fun r => r.confusion = "fn")).filter (fun r => r.confusion = "fn") =
        (m.filter (fun r => r.sample_name = s)).filter
          (fun r => r.confusion = "fn") :=
      List.filter_eq_self.mpr (fun e he => by simp [hfnk e he])
    have e4 : (conf_fn_update m t s).filter (fun r => r.confusion = "fn") =
        conf_fn_update m t s :=
      List.filter_eq_self.mpr (fun e he => by simp [hfnu e he])
    rw [List.filter_append, List.filter_append, List.filter_append,
      e1, e2, e3, e4] at h1
    simpa using h1

/-- C6: apply_confidence_threshold keeps exactly the tp and fp rows with
confidence at least the threshold, passes every input fn row through,
derives per sample exactly one new fn row (with detection and numeric
fields nulled) for each annotation index demoted out of tp and not
otherwise kept, and emits nothing else: in particular demoted fp rows
vanish without any replacement row. -/
theorem apply_confidence_threshold_spec (m : List MatchEntry) (t : ℚ) (b : Bool) :
    ((apply_confidence_threshold m t b).filter
        (fun r => r.confusion = "tp")).Perm
      (m.filter (fun r => r.confusion = "tp" ∧ oge r.confidence t = true)) ∧
    ((apply_confidence_threshold m t b).filter
        (fun r => r.confusion = "fp")).Perm
      (m.filter (fun r => r.confusion = "fp" ∧ oge r.confidence t = true)) ∧
    (∀ e ∈ m, e.confusion = "fn" → e ∈ apply_confidence_threshold m t b) ∧
    ((apply_confidence_threshold m t b).filter
        (fun r => r.confusion = "fn")).Perm
      (m.filter (fun r => r.confusion = "fn") ++
        (sample_names_of m).flatMap (fun s => conf_fn_update m t s)) ∧
    (∀ s : String, ∀ k : Option String,
      (conf_fn_update m t s).countP (fun r => r.annotation_index = k) =
        if k ∈ (conf_tp_check m t s).map (fun r => r.annotation_index) ∧
           k ∉ (conf_tp_keep m t s).map (fun r => r.annotation_index)
        then 1 else 0) ∧
    (∀ s : String, ∀ r ∈ conf_fn_update m t s,
      r.confusion = "fn" ∧ r.detection_index = none ∧ r.match_value = none ∧
        r.confidence = none) ∧
    (∀ e ∈ apply_confidence_threshold m t b,
      e.confusion = "tp" ∨ e.confusion = "fp" ∨ e.confusion = "fn") := by
  have hout : apply_confidence_threshold m t b =
      (sample_names_of m).flatMap (fun s => conf_sample m t s b) := rfl
  have htp : ((apply_confidence_threshold m t b).filter
      (fun r => r.confusion = "tp")).Perm
      (m.filter (fun r => r.confusion = "tp" ∧ oge r.confidence t = true)) := by
    rw [hout, filter_flatMap_entries]
    refine (flatMap_perm_congr _ _ _
      (fun s _ => (conf_sample_filter_piece m t s b).1)).trans ?_
    refine (flatMap_perm_congr _ _ (fun s =>
      (m.filter (fun r => r.sample_name = s)).filter
        (fun r => r.confusion = "tp" ∧ oge r.confidence t = true))
      (fun s _ => conf_tp_keep_as_filter m t s ▸ List.Perm.refl _)).trans ?_
    exact sample_partition_perm m _ (sample_names_of m) (sample_names_nodup m)
      (fun e he _ => sample_name_mem_sample_names he)
  have hfp : ((apply_confidence_threshold m t b).filter
      (fun r => r.confusion = "fp")).Perm
      (m.filter (fun r => r.confusion = "fp" ∧ oge r.confidence t = true)) := by
    rw [hout, filter_flatMap_entries]
    refine (flatMap_perm_congr _ _ _
      (fun s _ => (conf_sample_filter_piece m t s b).2.1)).trans ?_
    refine (flatMap_perm_congr _ _ (fun s =>
      (m.filter (fun r => r.sample_name = s)).filter
        (fun r => r.confusion = "fp" ∧ oge r.confidence t = true))
      (fun s _ => conf_fp_keep_as_filter m t s ▸ List.Perm.refl _)).trans ?_
    exact sample_partition_perm m _ (sample_names_of m) (sample_names_nodup m)
      (fun e he _ => sample_name_mem_sample_names he)
  have hfn : ((apply_confidence_threshold m t b).filter
      (fun r => r.confusion = "fn")).Perm
      (m.filter (fun r => r.confusion = "fn") ++
        (sample_names_of m).flatMap (fun s => conf_fn_update m t s)) := by
    rw [hout, filter_flatMap_entries]
    refine (flatMap_perm_congr _ _ _
      (fun s _ => (conf_sample_filter_piece m t s b).2.2)).trans ?_
    refine (flatMap_append_perm _ _ _).trans ?_
    refine List.Perm.append ?_ (List.Perm.refl _)
    exact sample_partition_perm m _ (sample_names_of m) (sample_names_nodup m)
      (fun e he _ => sample_name_mem_sample_names he)
  refine ⟨htp, hfp, ?_, hfn, conf_fn_update_countP m t, ?_, ?_⟩
  · intro e he hfne
    have hmem : e ∈ m.filter (fun r => r.confusion = "fn") :=
      List.mem_filter.mpr ⟨he, by simp [hfne]⟩
    have hmem2 : e ∈ (apply_confidence_threshold m t b).filter
        (fun r => r.confusion = "fn") :=
      hfn.symm.mem_iff.mp (List.mem_append_left _ hmem)
    exact (List.mem_filter.mp hmem2).1
  · intro s r hr
    have h := conf_fn_update_fields m t s r hr
    exact ⟨h.1, h.2.1, h.2.2.1, h.2.2.2.1⟩
  · intro e he
    rw [hout] at he
    rcases List.mem_flatMap.mp he with ⟨s, _, hes⟩
    have hes2 := (conf_sample_perm m t s b).mem_iff.mp hes
    rcases List.mem_append.mp hes2 with hes3 | hes3
    · rcases List.mem_append.mp hes3 with hes4 | hes4
      · rcases List.mem_append.mp hes4 with hes5 | hes5
        · exact Or.inl ((mem_conf_tp_keep m t s e).mp hes5).2.2.1
        · exact Or.inr (Or.inl ((mem_conf_fp_keep m t s e).mp hes5).2.2.1)
      · have hfe := (List.mem_filter.mp hes4).2
        simp only [decide_eq_true_eq] at hfe
        exact Or.inr (Or.inr hfe)
    · exact Or.inr (Or.inr (conf_fn_update_fields m t s e hes3).1)

/-- Witness for apply_confidence_threshold_spec: a concrete fn row of a
one-row table passes through unchanged. -/
theorem apply_confidence_threshold_spec_witness :
    ((⟨"s0", some "a1", none, "fn", "c", none, none⟩ : MatchEntry) ∈
        ([⟨"s0", some "a1", none, "fn", "c", none, none⟩] : List MatchEntry) ∧
      (⟨"s0", some "a1", none, "fn", "c", none, none⟩ : MatchEntry).confusion =
        "fn") ∧
    (⟨"s0", some "a1", none, "fn", "c", none, none⟩ : MatchEntry) ∈
      apply_confidence_threshold
        [⟨"s0", some "a1", none, "fn", "c", none, none⟩] (1/2) false :=
  ⟨⟨by simp, rfl⟩,
    (apply_confidence_threshold_spec
      [⟨"s0", some "a1", none, "fn", "c", none, none⟩] (1/2) false).2.2.1
      ⟨"s0", some "a1", none, "fn", "c", none, none⟩ (by simp) rfl⟩

/-! Lemmas for reduce_to_exclusive. -/

theorem mem_reduce_tp_sorted (m : List MatchEntry) (s : String) (e : MatchEntry) :
    e ∈ reduce_tp_sorted m s ↔
      e ∈ m ∧ e.sample_name = s ∧ e.confusion = "tp" := by
  unfold reduce_tp_sorted
  rw [(sort_tp_perm _).mem_iff]
  simp only [List.mem_filter, decide_eq_true_eq]
  tauto

theorem reduce_tp_sorted_keys_mem (m : List MatchEntry) (s : String)
    (key : MatchEntry → Option String) (k : Option String) :
    k ∈ (reduce_tp_sorted m s).map key ↔
      k ∈ ((m.filter (fun r => r.sample_name = s)).filter
        (fun r => r.confusion = "tp")).map key := by
  unfold reduce_tp_sorted
  rw [((sort_tp_perm _).map key).mem_iff]

theorem mem_reduce_tp_keep_sub (m : List MatchEntry) (s : String)
    {e : MatchEntry} (h : e ∈ reduce_tp_keep m s) : e ∈ reduce_tp_sorted m s :=
  mem_of_mem_drop_duplicates (mem_of_mem_drop_duplicates h)

theorem reduce_fn_update_fields (m : List MatchEntry) (s : String) :
    ∀ r ∈ reduce_fn_update m s,
      r.confusion = "fn" ∧ r.detection_index = none ∧ r.match_value = none ∧
      r.confidence = none ∧ r.sample_name = s := by
  intro r hr
  simp only [reduce_fn_update, List.mem_map] at hr
  obtain ⟨r0, hr0, hmap⟩ := hr
  have hr0s : r0 ∈ reduce_tp_sorted m s := by
    have := mem_of_mem_drop_duplicates hr0
    exact (List.mem_filter.mp this).1
  have hs : r0.sample_name = s := ((mem_reduce_tp_sorted m s r0).mp hr0s).2.1
  rw [← hmap]
  exact ⟨rfl, rfl, rfl, rfl, hs⟩

theorem reduce_fp_update_fields (m : List MatchEntry) (s : String) :
    ∀ r ∈ reduce_fp_update m s,
      r.confusion = "fp" ∧ r.annotation_index = none ∧ r.match_value = none ∧
      r.sample_name = s := by
  intro r hr
  simp only [reduce_fp_update, List.mem_map] at hr
  obtain ⟨r0, hr0, hmap⟩ := hr
  have hr0s : r0 ∈ reduce_tp_sorted m s := by
    have := mem_of_mem_drop_duplicates hr0
    exact (List.mem_filter.mp this).1
  have hs : r0.sample_name = s := ((mem_reduce_tp_sorted m s r0).mp hr0s).2.1
  rw [← hmap]
  exact ⟨rfl, rfl, rfl, hs⟩

theorem reduce_sample_perm (m : List MatchEntry) (s : String) (b : Bool) :
    (reduce_sample m s b).Perm
      (reduce_tp_keep m s ++
        (m.filter (fun r => r.sample_name = s)).filter
          (fun r => r.confusion = "fp") ++
        reduce_fp_update m s ++
        (m.filter (fun r => r.sample_name = s)).filter
          (fun r => r.confusion = "fn") ++
        reduce_fn_update m s) := by
  unfold reduce_sample
  exact sort_out_perm b _

theorem reduce_fn_update_countP (m : List MatchEntry) (s : String)
    (k : Option String) :
    (reduce_fn_update m s).countP (fun r => r.annotation_index = k) =
      if k ∈ ((m.filter (fun r => r.sample_name = s)).filter
            (fun r => r.confusion = "tp")).map (fun r => r.annotation_index) ∧
         k ∉ (reduce_tp_keep m s).map (fun r => r.annotation_index)
      then 1 else 0 := by
  unfold reduce_fn_update
  rw [List.countP_map]
  have hcomp : ((fun r : MatchEntry => decide (r.annotation_index = k)) ∘
      (fun r : MatchEntry =>
        { r with detection_index := none, confusion := "fn", match_value := none,
                 confidence := none })) =
      fun r : MatchEntry => decide (r.annotation_index = k) := by
    funext r
    rfl
  rw [hcomp, drop_duplicates_countP]
  have hiff : (k ∈ ((reduce_tp_sorted m s).filter (fun r => r.annotation_index ∈
        ((reduce_tp_sorted m s).map (fun r => r.annotation_index)).dedup.filter
          (fun i => i ∉ (reduce_tp_keep m s).map
            (fun r => r.annotation_index)))).map
        (fun r => r.annotation_index)) ↔
      (k ∈ ((m.filter (fun r => r.sample_name = s)).filter
          (fun r => r.confusion = "tp")).map (fun r => r.annotation_index) ∧
       k ∉ (reduce_tp_keep m s).map (fun r => r.annotation_index)) := by
    constructor
    · intro h
      rcases List.mem_map.mp h with ⟨r, hr, hk⟩
      rcases List.mem_filter.mp hr with ⟨hrtp, hrid⟩
      simp only [List.mem_filter, List.mem_dedup, decide_eq_true_eq] at hrid
      refine ⟨?_, hk ▸ hrid.2⟩
      rw [← reduce_tp_sorted_keys_mem]
      exact hk ▸ List.mem_map_of_mem _ hrtp
    · rintro ⟨hin, hout⟩
      rw [← reduce_tp_sorted_keys_mem m s (fun r => r.annotation_index) k] at hin
      rcases List.mem_map.mp hin with ⟨r, hr, hk⟩
      refine List.mem_map.mpr ⟨r, List.mem_filter.mpr ⟨hr, ?_⟩, hk⟩
      simp only [List.mem_filter, List.mem_dedup, decide_eq_true_eq]
      rw [hk]
      exact ⟨hin, hout⟩
  by_cases hc : k ∈ ((m.filter (fun r => r.sample_name = s)).filter
        (fun r => r.confusion = "tp")).map (fun r => r.annotation_index) ∧
      k ∉ (reduce_tp_keep m s).map (fun r => r.annotation_index)
  · rw [if_pos (hiff.mpr hc), if_pos hc]
  · rw [if_neg (fun hh => hc (hiff.mp hh)), if_neg hc]

theorem reduce_fp_update_countP (m : List MatchEntry) (s : String)
    (k : Option String) :
    (reduce_fp_update m s).countP (fun r => r.detection_index = k) =
      if k ∈ ((m.filter (fun r => r.sample_name = s)).filter
            (fun r => r.confusion = "tp")).map (fun r => r.detection_index) ∧
         k ∉ (reduce_tp_keep m s).map (fun r => r.detection_index)
      then 1 else 0 := by
  unfold reduce_fp_update
  rw [List.countP_map]
  have hcomp : ((fun r : MatchEntry => decide (r.detection_index = k)) ∘
      (fun r : MatchEntry =>
        { r with annotation_index := none, confusion := "fp",
                 match_value := none })) =
      fun r : MatchEntry => decide (r.detection_index = k) := by
    funext r
    rfl
  rw [hcomp, drop_duplicates_countP]
  have hiff : (k ∈ ((reduce_tp_sorted m s).filter (fun r => r.detection_index ∈
        ((reduce_tp_sorted m s).map (fun r => r.detection_index)).dedup.filter
          (fun i => i ∉ (reduce_tp_keep m s).map
            (fun r => r.detection_index)))).map
        (fun r => r.detection_index)) ↔
      (k ∈ ((m.filter (fun r => r.sample_name = s)).filter
          (fun r => r.confusion = "tp")).map (fun r => r.detection_index) ∧
       k ∉ (reduce_tp_keep m s).map (fun r => r.detection_index)) := by
    constructor
    · intro h
      rcases List.mem_map.mp h with ⟨r, hr, hk⟩
      rcases List.mem_filter.mp hr with ⟨hrtp, hrid⟩
      simp only [List.mem_filter, List.mem_dedup, decide_eq_true_eq] at hrid
      refine ⟨?_, hk ▸ hrid.2⟩
      rw [← reduce_tp_sorted_keys_mem]
      exact hk ▸ List.mem_map_of_mem _ hrtp
    · rintro ⟨hin, hout⟩
      rw [← reduce_tp_sorted_keys_mem m s (fun r => r.detection_index) k] at hin
      rcases List.mem_map.mp hin with ⟨r, hr, hk⟩
      refine List.mem_map.mpr ⟨r, List.mem_filter.mpr ⟨hr, ?_⟩, hk⟩
      simp only [List.mem_filter, List.mem_dedup, decide_eq_true_eq]
      rw [hk]
      exact ⟨hin, hout⟩
  by_cases hc : k ∈ ((m.filter (fun r => r.sample_name = s)).filter
        (fun r => r.confusion = "tp")).map (fun r => r.detection_index) ∧
      k ∉ (reduce_tp_keep m s).map (fun r => r.detection_index)
  · rw [if_pos (hiff.mpr hc), if_pos hc]
  · rw [if_neg (fun hh => hc (hiff.mp hh)), if_neg hc]

/-- C3: reduce_to_exclusive processes every sample independently; per
sample it keeps exactly the survivors of sorting the tp rows by
confidence then IoU descending and dropping duplicate detection then
annotation indices, passes the fp and fn rows through, and emits exactly
one new fn row (detection and numeric fields nulled) per annotation
index lost from tp and one new fp row (annotation index nulled,
confusion fp) per detection index lost from tp. -/
theorem reduce_to_exclusive_spec (m : List MatchEntry) (b : Bool) (s : String) :
    reduce_to_exclusive m b =
      (sample_names_of m).flatMap (fun s2 => reduce_sample m s2 b) ∧
    (reduce_sample m s b).Perm
      (reduce_tp_keep m s ++
        (m.filter (fun r => r.sample_name = s)).filter
          (fun r => r.confusion = "fp") ++
        reduce_fp_update m s ++
        (m.filter (fun r => r.sample_name = s)).filter
          (fun r => r.confusion = "fn") ++
        reduce_fn_update m s) ∧
    reduce_tp_keep m s =
      drop_duplicates (fun r => r.annotation_index)
        (drop_duplicates (fun r => r.detection_index)
          (sort_tp ((m.filter (fun r => r.sample_name = s)).filter
            (fun r => r.confusion = "tp")))) ∧
    (∀ k : Option String,
      (reduce_fn_update m s).countP (fun r => r.annotation_index = k) =
        if k ∈ ((m.filter (fun r => r.sample_name = s)).filter
              (fun r => r.confusion = "tp")).map (fun r => r.annotation_index) ∧
           k ∉ (reduce_tp_keep m s).map (fun r => r.annotation_index)
        then 1 else 0) ∧
    (∀ r ∈ reduce_fn_update m s,
      r.confusion = "fn" ∧ r.detection_index = none ∧ r.match_value = none ∧
        r.confidence = none) ∧
    (∀ k : Option String,
      (reduce_fp_update m s).countP (fun r => r.detection_index = k) =
        if k ∈ ((m.filter (fun r => r.sample_name = s)).filter
              (fun r => r.confusion = "tp")).map (fun r => r.detection_index) ∧
           k ∉ (reduce_tp_keep m s).map (fun r => r.detection_index)
        then 1 else 0) ∧
    (∀ r ∈ reduce_fp_update m s,
      r.confusion = "fp" ∧ r.annotation_index = none ∧ r.match_value = none) := by
  refine ⟨rfl, reduce_sample_perm m s b, rfl, reduce_fn_update_countP m s, ?_,
    reduce_fp_update_countP m s, ?_⟩
  · intro r hr
    have h := reduce_fn_update_fields m s r hr
    exact ⟨h.1, h.2.1, h.2.2.1, h.2.2.2.1⟩
  · intro r hr
    have h := reduce_fp_update_fields m s r hr
    exact ⟨h.1, h.2.1, h.2.2.1⟩

/-- Witness for reduce_to_exclusive_spec: on a concrete table where two
tp rows share the detection index d1, the lower-confidence row's
annotation index a2 yields a new fn row with nulled fields. -/
theorem reduce_to_exclusive_spec_witness :
    (⟨"s0", some "a2", none, "fn", "c", none, none⟩ : MatchEntry) ∈
      reduce_fn_update
        [⟨"s0", some "a1", some "d1", "tp", "c", some 9, some 9⟩,
         ⟨"s0", some "a2", some "d1", "tp", "c", some 7, some 8⟩]
        "s0" ∧
    ((⟨"s0", some "a2", none, "fn", "c", none, none⟩ : MatchEntry).confusion =
        "fn" ∧
      (⟨"s0", some "a2", none, "fn", "c", none, none⟩ :
        MatchEntry).detection_index = none ∧
      (⟨"s0", some "a2", none, "fn", "c", none, none⟩ :
        MatchEntry).match_value = none ∧
      (⟨"s0", some "a2", none, "fn", "c", none, none⟩ :
        MatchEntry).confidence = none) := by
  have hmem : (⟨"s0", some "a2", none, "fn", "c", none, none⟩ : MatchEntry) ∈
      reduce_fn_update
        [⟨"s0", some "a1", some "d1", "tp", "c", some 9, some 9⟩,
         ⟨"s0", some "a2", some "d1", "tp", "c", some 7, some 8⟩]
        "s0" := by decide
  exact ⟨hmem,
    (reduce_to_exclusive_spec
      [⟨"s0", some "a1", some "d1", "tp", "c", some 9, some 9⟩,
       ⟨"s0", some "a2", some "d1", "tp", "c", some 7, some 8⟩]
      false "s0").2.2.2.2.1
      ⟨"s0", some "a2", none, "fn", "c", none, none⟩ hmem⟩

/-! Lemmas for apply_iou_threshold and the NaN-valued tp row behaviour. -/

theorem mem_iou_tp_keep (m : List MatchEntry) (t : ℚ) (s : String)
    (e : MatchEntry) :
    e ∈ iou_tp_keep m t s ↔
      e ∈ m ∧ e.sample_name = s ∧ e.confusion = "tp" ∧
        oge e.match_value t = true := by
  simp only [iou_tp_keep, List.mem_filter, decide_eq_true_eq]
  tauto

theorem mem_iou_tp_check (m : List MatchEntry) (t : ℚ) (s : String)
    (e : MatchEntry) :
    e ∈ iou_tp_check m t s ↔
      e ∈ m ∧ e.sample_name = s ∧ e.confusion = "tp" ∧
        olt e.match_value t = true := by
  simp only [iou_tp_check, List.mem_filter, decide_eq_true_eq]
  tauto

theorem iou_fn_update_fields (m : List MatchEntry) (t : ℚ) (s : String) :
    ∀ r ∈ iou_fn_update m t s,
      r.confusion = "fn" ∧ r.detection_index = none ∧ r.match_value = none ∧
      r.confidence = none := by
  intro r hr
  simp only [iou_fn_update, List.mem_map] at hr
  obtain ⟨r0, _, hmap⟩ := hr
  rw [← hmap]
  exact ⟨rfl, rfl, rfl, rfl⟩

theorem iou_fp_update_fields (m : List MatchEntry) (t : ℚ) (s : String) :
    ∀ r ∈ iou_fp_update m t s,
      r.confusion = "fp" ∧ r.annotation_index = none ∧ r.match_value = none := by
  intro r hr
  simp only [iou_fp_update, List.mem_map] at hr
  obtain ⟨r0, _, hmap⟩ := hr
  rw [← hmap]
  exact ⟨rfl, rfl, rfl⟩

theorem iou_sample_perm (m : List MatchEntry) (t : ℚ) (s : String) (b : Bool) :
    (iou_sample m t s b).Perm
      (iou_tp_keep m t s ++
        (m.filter (fun r => r.sample_name = s)).filter
          (fun r => r.confusion = "fp") ++
        iou_fp_update m t s ++
        (m.filter (fun r => r.sample_name = s)).filter
          (fun r => r.confusion = "fn") ++
        iou_fn_update m t s) := by
  unfold iou_sample
  exact sort_out_perm b _

theorem filter_erase_of_not (p : MatchEntry → Bool) (m : List MatchEntry)
    (e : MatchEntry) (he : e ∈ m) (hpe : p e = false) :
    (m.erase e).filter p = m.filter p := by
  obtain ⟨l1, l2, _, hm, her⟩ := List.exists_erase_eq he
  rw [her, hm, List.filter_append, List.filter_append]
  congr 1
  simp [List.filter_cons, hpe]

theorem iou_tp_keep_erase (m : List MatchEntry) (t : ℚ) (s : String)
    (e : MatchEntry) (he : e ∈ m) (hnan : e.match_value = none) :
    iou_tp_keep (m.erase e) t s = iou_tp_keep m t s := by
  unfold iou_tp_keep
  rw [List.filter_filter, List.filter_filter, List.filter_filter,
    List.filter_filter]
  exact filter_erase_of_not _ m e he (by simp [oge, hnan])

theorem iou_tp_check_erase (m : List MatchEntry) (t : ℚ) (s : String)
    (e : MatchEntry) (he : e ∈ m) (hnan : e.match_value = none) :
    iou_tp_check (m.erase e) t s = iou_tp_check m t s := by
  unfold iou_tp_check
  rw [List.filter_filter, List.filter_filter, List.filter_filter,
    List.filter_filter]
  exact filter_erase_of_not _ m e he (by simp [olt, hnan])

theorem fp_keep_erase (m : List MatchEntry) (s : String) (e : MatchEntry)
    (he : e ∈ m) (htp : e.confusion = "tp") :
    ((m.erase e).filter (fun r => r.sample_name = s)).filter
        (fun r => r.confusion = "fp") =
      (m.filter (fun r => r.sample_name = s)).filter
        (fun r => r.confusion = "fp") := by
  rw [List.filter_filter, List.filter_filter]
  exact filter_erase_of_not _ m e he (by simp [htp])

theorem fn_keep_erase (m : List MatchEntry) (s : String) (e : MatchEntry)
    (he : e ∈ m) (htp : e.confusion = "tp") :
    ((m.erase e).filter (fun r => r.sample_name = s)).filter
        (fun r => r.confusion = "fn") =
      (m.filter (fun r => r.sample_name = s)).filter
        (fun r => r.confusion = "fn") := by
  rw [List.filter_filter, List.filter_filter]
  exact filter_erase_of_not _ m e he (by simp [htp])

theorem iou_fn_update_erase (m : List MatchEntry) (t : ℚ) (s : String)
    (e : MatchEntry) (he : e ∈ m) (hnan : e.match_value = none) :
    iou_fn_update (m.erase e) t s = iou_fn_update m t s := by
  unfold iou_fn_update
  rw [iou_tp_keep_erase m t s e he hnan, iou_tp_check_erase m t s e he hnan]

theorem iou_fp_update_erase (m : List MatchEntry) (t : ℚ) (s : String)
    (e : MatchEntry) (he : e ∈ m) (hnan : e.match_value = none) :
    iou_fp_update (m.erase e) t s = iou_fp_update m t s := by
  unfold iou_fp_update
  rw [iou_tp_keep_erase m t s e he hnan, iou_tp_check_erase m t s e he hnan]

theorem iou_sample_erase (m : List MatchEntry) (t : ℚ) (s : String) (b : Bool)
    (e : MatchEntry) (he : e ∈ m) (htp : e.confusion = "tp")
    (hnan : e.match_value = none) :
    iou_sample (m.erase e) t s b = iou_sample m t s b := by
  unfold iou_sample
  dsimp only
  rw [iou_tp_keep_erase m t s e he hnan,
    iou_fn_update_erase m t s e he hnan, iou_fp_update_erase m t s e he hnan,
    fp_keep_erase m s e he htp, fn_keep_erase m s e he htp]

theorem sortStr_sorted (l : List String) :
    List.Sorted (fun a b : String => a ≤ b) (sortStr l) := by
  haveI h1 : IsTotal String (fun a b : String => a ≤ b) := ⟨le_total⟩
  haveI h2 : IsTrans String (fun a b : String => a ≤ b) :=
    ⟨fun a b c hab hbc => le_trans hab hbc⟩
  exact List.sorted_insertionSort _ l

theorem sample_names_sorted (m : List MatchEntry) :
    List.Sorted (fun a b : String => a ≤ b) (sample_names_of m) :=
  sortStr_sorted _

/-- C10: a tp row whose match_value is the NaN sentinel fails both the
keep comparison and the demote comparison of apply_iou_threshold, is
absent from the output, and removing it from the input changes nothing:
its indices disappear without generating any fn or fp row. -/
theorem apply_iou_threshold_nan_row (m : List MatchEntry) (t : ℚ) (b : Bool)
    (e : MatchEntry) (he : e ∈ m) (htp : e.confusion = "tp")
    (hnan : e.match_value = none) :
    oge e.match_value t = false ∧ olt e.match_value t = false ∧
    e ∉ apply_iou_threshold m t b ∧
    apply_iou_threshold m t b = apply_iou_threshold (m.erase e) t b := by
  haveI hanti : IsAntisymm String (fun a b : String => a ≤ b) :=
    ⟨fun a b hab hba => le_antisymm hab hba⟩
  have hout : ∀ m2 : List MatchEntry, apply_iou_threshold m2 t b =
      (sample_names_of m2).flatMap (fun s => iou_sample m2 t s b) :=
    fun _ => rfl
  have hoge : oge e.match_value t = false := by rw [hnan]; rfl
  have holt : olt e.match_value t = false := by rw [hnan]; rfl
  have hfun : (fun s => iou_sample (m.erase e) t s b) =
      (fun s => iou_sample m t s b) :=
    funext fun s => iou_sample_erase m t s b e he htp hnan
  have hnotin : e ∉ apply_iou_threshold m t b := by
    intro hmem
    rw [hout m] at hmem
    rcases List.mem_flatMap.mp hmem with ⟨s, _, hes⟩
    have hes2 := (iou_sample_perm m t s b).mem_iff.mp hes
    rcases List.mem_append.mp hes2 with h4 | h4
    · rcases List.mem_append.mp h4 with h5 | h5
      · rcases List.mem_append.mp h5 with h6 | h6
        · rcases List.mem_append.mp h6 with h7 | h7
          · have hk := ((mem_iou_tp_keep m t s e).mp h7).2.2.2
            rw [hoge] at hk
            exact absurd hk (by simp)
          · have hk := (List.mem_filter.mp h7).2
            simp only [decide_eq_true_eq] at hk
            rw [htp] at hk
            exact absurd hk (by simp)
        · have hk := (iou_fp_update_fields m t s e h6).1
          rw [htp] at hk
          exact absurd hk (by simp)
      · have hk := (List.mem_filter.mp h5).2
        simp only [decide_eq_true_eq] at hk
        rw [htp] at hk
        exact absurd hk (by simp)
    · have hk := (iou_fn_update_fields m t s e h4).1
      rw [htp] at hk
      exact absurd hk (by simp)
  refine ⟨hoge, holt, hnotin, ?_⟩
  by_cases hcase : e.sample_name ∈ (m.erase e).map (fun r => r.sample_name)
  · have hnames : sample_names_of (m.erase e) = sample_names_of m := by
      apply List.eq_of_perm_of_sorted ?_ (sample_names_sorted _)
        (sample_names_sorted _)
      rw [List.perm_ext_iff_of_nodup (sample_names_nodup _)
        (sample_names_nodup _)]
      intro x
      rw [mem_sample_names, mem_sample_names]
      obtain ⟨l1, l2, _, hm, her⟩ := List.exists_erase_eq he
      constructor
      · intro hx
        rw [her] at hx
        rw [hm]
        simp only [List.map_append, List.mem_append, List.map_cons,
          List.mem_cons] at hx ⊢
        tauto
      · intro hx
        rw [hm] at hx
        rw [her]
        simp only [List.map_append, List.mem_append, List.map_cons,
          List.mem_cons] at hx ⊢
        rcases hx with hx | hx | hx
        · exact Or.inl hx
        · rw [her] at hcase
          simp only [List.map_append, List.mem_append] at hcase
          rw [hx]
          exact hcase
        · exact Or.inr hx
    rw [hout m, hout (m.erase e), hnames, hfun]
  · obtain ⟨l1, l2, _, hm, her⟩ := List.exists_erase_eq he
    have honly : m.filter (fun r => r.sample_name = e.sample_name) = [e] := by
      rw [hm, List.filter_append]
      have h1 : l1.filter (fun r => r.sample_name = e.sample_name) = [] := by
        rw [List.filter_eq_nil_iff]
        intro a ha
        simp only [decide_eq_true_eq]
        intro hsa
        apply hcase
        rw [her, ← hsa]
        exact List.mem_map_of_mem _ (List.mem_append_left _ ha)
      have h2 : l2.filter (fun r => r.sample_name = e.sample_name) = [] := by
        rw [List.filter_eq_nil_iff]
        intro a ha
        simp only [decide_eq_true_eq]
        intro hsa
        apply hcase
        rw [her, ← hsa]
        exact List.mem_map_of_mem _ (List.mem_append_right _ ha)
      rw [h1, List.filter_cons_of_pos (by simp), h2]
      rfl
    have hkeep : iou_tp_keep m t e.sample_name = [] := by
      unfold iou_tp_keep
      rw [honly]
      rw [List.filter_cons_of_pos (by simp [htp]), List.filter_nil,
        List.filter_cons_of_neg (by simp [hoge]), List.filter_nil]
    have hcheck : iou_tp_check m t e.sample_name = [] := by
      unfold iou_tp_check
      rw [honly]
      rw [List.filter_cons_of_pos (by simp [htp]), List.filter_nil,
        List.filter_cons_of_neg (by simp [holt]), List.filter_nil]
    have hfpk : (m.filter (fun r => r.sample_name = e.sample_name)).filter
        (fun r => r.confusion = "fp") = [] := by
      rw [honly]
      rw [List.filter_cons_of_neg (by simp [htp]), List.filter_nil]
    have hfnk : (m.filter (fun r => r.sample_name = e.sample_name)).filter
        (fun r => r.confusion = "fn") = [] := by
      rw [honly]
      rw [List.filter_cons_of_neg (by simp [htp]), List.filter_nil]
    have hfnu : iou_fn_update m t e.sample_name = [] := by
      unfold iou_fn_update
      rw [hcheck]
      rfl
    have hfpu : iou_fp_update m t e.sample_name = [] := by
      unfold iou_fp_update
      rw [hcheck]
      rfl
    have hsample_nil : iou_sample m t e.sample_name b = [] := by
      unfold iou_sample
      dsimp only
      rw [hkeep, hfpk, hfpu, hfnk, hfnu]
      cases b <;> rfl
    have hnames2 : sample_names_of (m.erase e) =
        (sample_names_of m).erase e.sample_name := by
      apply List.eq_of_perm_of_sorted ?_ (sample_names_sorted _)
        (List.Pairwise.sublist (List.erase_sublist _ _) (sample_names_sorted m))
      rw [List.perm_ext_iff_of_nodup (sample_names_nodup _)
        ((sample_names_nodup m).erase _)]
      intro x
      rw [mem_sample_names, (sample_names_nodup m).mem_erase_iff,
        mem_sample_names]
      constructor
      · intro hx
        refine ⟨?_, ?_⟩
        · intro hxe
          rw [hxe] at hx
          exact hcase hx
        · rw [her] at hx
          rw [hm]
          simp only [List.map_append, List.mem_append, List.map_cons,
            List.mem_cons] at hx ⊢
          tauto
      · rintro ⟨hxne, hx⟩
        rw [hm] at hx
        rw [her]
        simp only [List.map_append, List.mem_append, List.map_cons,
          List.mem_cons] at hx ⊢
        rcases hx with hx | hx | hx
        · exact Or.inl hx
        · exact absurd hx hxne
        · exact Or.inr hx
    rw [hout m, hout (m.erase e), hnames2, hfun]
    obtain ⟨a, c, _, hL, herL⟩ :=
      List.exists_erase_eq (sample_name_mem_sample_names he)
    rw [herL, hL, List.flatMap_append, List.flatMap_append, List.flatMap_cons,
      hsample_nil]
    simp

/-- Witness for apply_iou_threshold_nan_row on a one-row table whose tp
row has a NaN match_value. -/
theorem apply_iou_threshold_nan_row_witness :
    ((⟨"s0", some "a1", some "d1", "tp", "c", none, some 1⟩ : MatchEntry) ∈
        ([⟨"s0", some "a1", some "d1", "tp", "c", none, some 1⟩] :
          List MatchEntry) ∧
      (⟨"s0", some "a1", some "d1", "tp", "c", none, some 1⟩ :
        MatchEntry).confusion = "tp" ∧
      (⟨"s0", some "a1", some "d1", "tp", "c", none, some 1⟩ :
        MatchEntry).match_value = none) ∧
    (⟨"s0", some "a1", some "d1", "tp", "c", none, some 1⟩ : MatchEntry) ∉
      apply_iou_threshold
        [⟨"s0", some "a1", some "d1", "tp", "c", none, some 1⟩] (1/2) false :=
  ⟨⟨by simp, rfl, rfl⟩,
    (apply_iou_threshold_nan_row
      [⟨"s0", some "a1", some "d1", "tp", "c", none, some 1⟩] (1/2) false
      ⟨"s0", some "a1", some "d1", "tp", "c", none, some 1⟩
      (by simp) rfl rfl).2.2.1⟩

/-! Lemmas about match_block and BoxCorrelator.match. -/

theorem mem_ann_slice (annotation_data : List AnnRow) (s c : String)
    (a : AnnRow) :
    a ∈ ann_slice annotation_data s c ↔
      a ∈ annotation_data ∧ a.sample_name = s ∧ a.class_id = c := by
  simp only [ann_slice, List.mem_filter, decide_eq_true_eq]
  tauto

theorem mem_det_slice (detection_data : List DetRow) (s c : String)
    (d : DetRow) :
    d ∈ det_slice detection_data s c ↔
      d ∈ detection_data ∧ d.sample_name = s ∧ d.class_id = c := by
  simp only [det_slice, List.mem_filter, decide_eq_true_eq]
  tauto

/-- Classification of the rows of one block: a tp entry of the policy,
a derived fp entry, or a derived fn entry, each with the recorded
shape. -/
theorem match_block_mem (mt : MatchingType) (annotation_data : List AnnRow)
    (detection_data : List DetRow) (criterion : Criterion) (threshold : ℚ)
    (s c : String) :
    ∀ e ∈ match_block mt annotation_data detection_data criterion threshold s c,
      (∃ a ∈ ann_slice annotation_data s c, ∃ d ∈ det_slice detection_data s c,
        ∃ v : ℚ, threshold ≤ v ∧
          e = build_matching_entry a.sample_name (some a.index) (some d.index)
            "tp" a.class_id (some v) (some d.confidence)) ∨
      (∃ i ∈ (det_slice detection_data s c).map (fun r => r.index),
        i ∉ (match_boxes mt (ann_slice annotation_data s c)
          (det_slice detection_data s c) criterion threshold).2.2 ∧
        e = build_matching_entry s none (some i) "fp" c none
          (((det_slice detection_data s c).find? (fun r => r.index = i)).map
            (fun r => r.confidence))) ∨
      (∃ i ∈ (ann_slice annotation_data s c).map (fun r => r.index),
        i ∉ (match_boxes mt (ann_slice annotation_data s c)
          (det_slice detection_data s c) criterion threshold).2.1 ∧
        e = build_matching_entry s (some i) none "fn" c none none) := by
  intro e he
  unfold match_block at he
  rcases List.mem_append.mp he with h1 | h1
  · rcases List.mem_append.mp h1 with h2 | h2
    · exact Or.inl (match_boxes_tp mt _ _ criterion threshold e h2)
    · refine Or.inr (Or.inl ?_)
      simp only [block_fp_entries, List.mem_map, List.mem_filter,
        List.mem_dedup] at h2
      obtain ⟨i, ⟨hi1, hi2⟩, hee⟩ := h2
      simp only [decide_eq_true_eq] at hi2
      exact ⟨i, List.mem_map.mpr hi1, hi2, hee.symm⟩
  · refine Or.inr (Or.inr ?_)
    simp only [block_fn_entries, List.mem_map, List.mem_filter,
      List.mem_dedup] at h1
    obtain ⟨i, ⟨hi1, hi2⟩, hee⟩ := h1
    simp only [decide_eq_true_eq] at hi2
    exact ⟨i, List.mem_map.mpr hi1, hi2, hee.symm⟩

/-- Every row of a block carries the block's sample and class. -/
theorem match_block_sample_class (mt : MatchingType)
    (annotation_data : List AnnRow) (detection_data : List DetRow)
    (criterion : Criterion) (threshold : ℚ) (s c : String) :
    ∀ e ∈ match_block mt annotation_data detection_data criterion threshold s c,
      e.sample_name = s ∧ e.class_id = c := by
  intro e he
  rcases match_block_mem mt annotation_data detection_data criterion threshold
    s c e he with h | h | h
  · obtain ⟨a, ha, d, _, v, _, hee⟩ := h
    obtain ⟨_, has, hac⟩ := (mem_ann_slice annotation_data s c a).mp ha
    rw [hee]
    exact ⟨has, hac⟩
  · obtain ⟨i, _, _, hee⟩ := h
    rw [hee]
    exact ⟨rfl, rfl⟩
  · obtain ⟨i, _, _, hee⟩ := h
    rw [hee]
    exact ⟨rfl, rfl⟩

/-- Membership in the output of BoxCorrelator.match decomposes into one
block, for a sample name listed from the annotation table. -/
theorem correlator_match_mem (mt : MatchingType) (annotation_data : List AnnRow)
    (detection_data : List DetRow) (criterion : Criterion) (threshold : ℚ)
    (match_classes : Option (List String)) :
    ∀ e ∈ correlator_match mt annotation_data detection_data criterion threshold
        match_classes,
      ∃ s, s ∈ annotation_data.map (fun r => r.sample_name) ∧ ∃ c,
        e ∈ match_block mt annotation_data detection_data criterion threshold
          s c := by
  intro e he
  simp only [correlator_match, List.mem_flatMap] at he
  obtain ⟨s, hs, c, _, heb⟩ := he
  unfold sample_name_list at hs
  rw [(sortStr_perm _).mem_iff, List.mem_dedup] at hs
  exact ⟨s, hs, c, heb⟩

/-- C4: every row of a correlator match table satisfies the confusion
shape invariants: tp rows reference both indices and carry a match value
at least the threshold; fp rows have a null annotation index and a
non-null detection index; fn rows have a null detection index and a
non-null annotation index. -/
theorem correlator_match_confusion (mt : MatchingType)
    (annotation_data : List AnnRow) (detection_data : List DetRow)
    (criterion : Criterion) (threshold : ℚ)
    (match_classes : Option (List String)) :
    ∀ e ∈ correlator_match mt annotation_data detection_data criterion threshold
        match_classes,
      (e.confusion = "tp" →
        (∃ i, e.annotation_index = some i) ∧
        (∃ j, e.detection_index = some j) ∧
        ∃ v, e.match_value = some v ∧ threshold ≤ v) ∧
      (e.confusion = "fp" →
        e.annotation_index = none ∧ ∃ j, e.detection_index = some j) ∧
      (e.confusion = "fn" →
        e.detection_index = none ∧ ∃ i, e.annotation_index = some i) := by
  intro e he
  obtain ⟨s, _, c, heb⟩ := correlator_match_mem mt annotation_data
    detection_data criterion threshold match_classes e he
  rcases match_block_mem mt annotation_data detection_data criterion threshold
    s c e heb with h | h | h
  · obtain ⟨a, _, d, _, v, hv, hee⟩ := h
    rw [hee]
    refine ⟨fun _ => ⟨⟨a.index, rfl⟩, ⟨d.index, rfl⟩, v, rfl, hv⟩, ?_, ?_⟩
    · intro hcontra
      exact absurd hcontra (by simp [build_matching_entry])
    · intro hcontra
      exact absurd hcontra (by simp [build_matching_entry])
  · obtain ⟨i, _, _, hee⟩ := h
    rw [hee]
    refine ⟨?_, fun _ => ⟨rfl, ⟨i, rfl⟩⟩, ?_⟩
    · intro hcontra
      exact absurd hcontra (by simp [build_matching_entry])
    · intro hcontra
      exact absurd hcontra (by simp [build_matching_entry])
  · obtain ⟨i, _, _, hee⟩ := h
    rw [hee]
    refine ⟨?_, ?_, fun _ => ⟨rfl, ⟨i, rfl⟩⟩⟩
    · intro hcontra
      exact absurd hcontra (by simp [build_matching_entry])
    · intro hcontra
      exact absurd hcontra (by simp [build_matching_entry])

/-- Witness for correlator_match_confusion: the fp row emitted for the
single unmatched detection of a one-row prediction table. -/
theorem correlator_match_confusion_witness :
    (build_matching_entry "s0" none (some "d0") "fp" "c0" none (some 1) ∈
      correlator_match MatchingType.complete
        [⟨"a0", "s0", "c0", (0, 0), (2, 2)⟩]
        [⟨"d0", "s0", "c0", (100, 100), (2, 2), 1⟩]
        (fun _ _ _ _ => none) (1/2) none) ∧
    ((build_matching_entry "s0" none (some "d0") "fp" "c0" none
        (some 1)).confusion = "fp" →
      (build_matching_entry "s0" none (some "d0") "fp" "c0" none
        (some 1)).annotation_index = none ∧
      ∃ j, (build_matching_entry "s0" none (some "d0") "fp" "c0" none
        (some 1)).detection_index = some j) := by
  have hmem : build_matching_entry "s0" none (some "d0") "fp" "c0" none
      (some 1) ∈
      correlator_match MatchingType.complete
        [⟨"a0", "s0", "c0", (0, 0), (2, 2)⟩]
        [⟨"d0", "s0", "c0", (100, 100), (2, 2), 1⟩]
        (fun _ _ _ _ => none) (1/2) none := by decide
  exact ⟨hmem,
    (correlator_match_confusion MatchingType.complete
      [⟨"a0", "s0", "c0", (0, 0), (2, 2)⟩]
      [⟨"d0", "s0", "c0", (100, 100), (2, 2), 1⟩]
      (fun _ _ _ _ => none) (1/2) none _ hmem).2.1⟩

/-- C9: samples are enumerated from the annotation table only, so a
prediction whose sample_name never occurs there contributes no output
row: every output row's sample comes from the annotation table, differs
from that prediction's sample, and (with unique prediction indices)
never references that prediction's index. -/
theorem correlator_match_unknown_sample (mt : MatchingType)
    (annotation_data : List AnnRow) (detection_data : List DetRow)
    (criterion : Criterion) (threshold : ℚ)
    (match_classes : Option (List String)) (d : DetRow)
    (hd : d ∈ detection_data)
    (hnot : d.sample_name ∉ annotation_data.map (fun r => r.sample_name))
    (hnodup : (detection_data.map (fun r => r.index)).Nodup) :
    ∀ e ∈ correlator_match mt annotation_data detection_data criterion threshold
        match_classes,
      e.sample_name ∈ annotation_data.map (fun r => r.sample_name) ∧
      e.sample_name ≠ d.sample_name ∧
      e.detection_index ≠ some d.index := by
  intro e he
  obtain ⟨s, hs, c, heb⟩ := correlator_match_mem mt annotation_data
    detection_data criterion threshold match_classes e he
  have hsc := match_block_sample_class mt annotation_data detection_data
    criterion threshold s c e heb
  refine ⟨by rw [hsc.1]; exact hs, ?_, ?_⟩
  · intro heq
    exact hnot (by rw [← heq, hsc.1]; exact hs)
  · intro hdet
    rcases match_block_mem mt annotation_data detection_data criterion
      threshold s c e heb with h | h | h
    · obtain ⟨a, _, d2, hd2, v, _, hee⟩ := h
      rw [hee] at hdet
      have hidx : d2.index = d.index := by
        simpa [build_matching_entry] using hdet
      obtain ⟨hd2mem, hd2s, _⟩ := (mem_det_slice detection_data s c d2).mp hd2
      have hd2d : d2 = d := List.inj_on_of_nodup_map hnodup hd2mem hd hidx
      apply hnot
      rw [← hd2d, hd2s]
      exact hs
    · obtain ⟨i, hi, _, hee⟩ := h
      rw [hee] at hdet
      have hidx : i = d.index := by
        simpa [build_matching_entry] using hdet
      obtain ⟨r2, hr2, hr2i⟩ := List.mem_map.mp hi
      obtain ⟨hr2mem, hr2s, _⟩ := (mem_det_slice detection_data s c r2).mp hr2
      have hr2d : r2 = d :=
        List.inj_on_of_nodup_map hnodup hr2mem hd (by rw [hr2i, hidx])
      apply hnot
      rw [← hr2d, hr2s]
      exact hs
    · obtain ⟨i, _, _, hee⟩ := h
      rw [hee] at hdet
      exact absurd hdet (by simp [build_matching_entry])

/-- Witness for correlator_match_unknown_sample: a prediction in an
unknown sample sX is silently dropped; the fn row of the known sample
s0 references neither its sample nor its index. -/
theorem correlator_match_unknown_sample_witness :
    ((⟨"dX", "sX", "c0", (0, 0), (2, 2), 1⟩ : DetRow) ∈
        ([⟨"d0", "s0", "c0", (100, 100), (2, 2), 1⟩,
          ⟨"dX", "sX", "c0", (0, 0), (2, 2), 1⟩] : List DetRow) ∧
      ("sX" : String) ∉ ([⟨"a0", "s0", "c0", (0, 0), (2, 2)⟩] :
        List AnnRow).map (fun r => r.sample_name) ∧
      (([⟨"d0", "s0", "c0", (100, 100), (2, 2), 1⟩,
          ⟨"dX", "sX", "c0", (0, 0), (2, 2), 1⟩] : List DetRow).map
        (fun r => r.index)).Nodup ∧
      build_matching_entry "s0" (some "a0") none "fn" "c0" none none ∈
        correlator_match MatchingType.complete
          [⟨"a0", "s0", "c0", (0, 0), (2, 2)⟩]
          [⟨"d0", "s0", "c0", (100, 100), (2, 2), 1⟩,
           ⟨"dX", "sX", "c0", (0, 0), (2, 2), 1⟩]
          (fun _ _ _ _ => none) (1/2) none) ∧
    (build_matching_entry "s0" (some "a0") none "fn" "c0" none
        none).detection_index ≠ some "dX" := by
  have hmem : build_matching_entry "s0" (some "a0") none "fn" "c0" none none ∈
      correlator_match MatchingType.complete
        [⟨"a0", "s0", "c0", (0, 0), (2, 2)⟩]
        [⟨"d0", "s0", "c0", (100, 100), (2, 2), 1⟩,
         ⟨"dX", "sX", "c0", (0, 0), (2, 2), 1⟩]
        (fun _ _ _ _ => none) (1/2) none := by decide
  refine ⟨⟨by decide, by decide, by decide, hmem⟩, ?_⟩
  exact (correlator_match_unknown_sample MatchingType.complete
    [⟨"a0", "s0", "c0", (0, 0), (2, 2)⟩]
    [⟨"d0", "s0", "c0", (100, 100), (2, 2), 1⟩,
     ⟨"dX", "sX", "c0", (0, 0), (2, 2), 1⟩]
    (fun _ _ _ _ => none) (1/2) none
    ⟨"dX", "sX", "c0", (0, 0), (2, 2), 1⟩ (by decide) (by decide) (by decide)
    (build_matching_entry "s0" (some "a0") none "fn" "c0" none none)
    hmem).2.2

/-! Lemmas for the exclusive greedy loop (claim about confidence order,
best-IoU selection and claiming). -/

theorem exclusive_step_eq_of_none (annotations_cls : List AnnRow)
    (criterion : Criterion) (threshold : ℚ) (st : MatchResult) (det : DetRow)
    (hb : bestAnn det criterion annotations_cls = none) :
    exclusive_step annotations_cls criterion threshold st det = st := by
  unfold exclusive_step
  rw [hb]

theorem exclusive_step_eq_of_pos (annotations_cls : List AnnRow)
    (criterion : Criterion) (threshold : ℚ) (st : MatchResult) (det : DetRow)
    (v : ℚ) (ann : AnnRow)
    (hb : bestAnn det criterion annotations_cls = some (v, ann))
    (hcond : threshold ≤ v ∧ ann.index ∉ st.2.1) :
    exclusive_step annotations_cls criterion threshold st det =
      (st.1 ++ [build_matching_entry ann.sample_name (some ann.index)
        (some det.index) "tp" ann.class_id (some v) (some det.confidence)],
       st.2.1 ++ [ann.index], st.2.2 ++ [det.index]) := by
  unfold exclusive_step
  rw [hb]
  dsimp only
  rw [if_pos hcond]

theorem exclusive_step_eq_of_neg (annotations_cls : List AnnRow)
    (criterion : Criterion) (threshold : ℚ) (st : MatchResult) (det : DetRow)
    (v : ℚ) (ann : AnnRow)
    (hb : bestAnn det criterion annotations_cls = some (v, ann))
    (hcond : ¬(threshold ≤ v ∧ ann.index ∉ st.2.1)) :
    exclusive_step annotations_cls criterion threshold st det = st := by
  unfold exclusive_step
  rw [hb]
  dsimp only
  rw [if_neg hcond]

theorem exclusive_step_cases (annotations_cls : List AnnRow)
    (criterion : Criterion) (threshold : ℚ) (st : MatchResult) (det : DetRow) :
    exclusive_step annotations_cls criterion threshold st det = st ∨
    ∃ v ann, bestAnn det criterion annotations_cls = some (v, ann) ∧
      threshold ≤ v ∧ ann.index ∉ st.2.1 ∧
      exclusive_step annotations_cls criterion threshold st det =
        (st.1 ++ [build_matching_entry ann.sample_name (some ann.index)
          (some det.index) "tp" ann.class_id (some v) (some det.confidence)],
         st.2.1 ++ [ann.index], st.2.2 ++ [det.index]) := by
  cases hb : bestAnn det criterion annotations_cls with
  | none =>
    exact Or.inl (exclusive_step_eq_of_none annotations_cls criterion threshold
      st det hb)
  | some pv =>
    rcases pv with ⟨v, ann⟩
    by_cases hcond : threshold ≤ v ∧ ann.index ∉ st.2.1
    · exact Or.inr ⟨v, ann, rfl, hcond.1, hcond.2,
        exclusive_step_eq_of_pos annotations_cls criterion threshold st det
          v ann hb hcond⟩
    · exact Or.inl (exclusive_step_eq_of_neg annotations_cls criterion threshold
        st det v ann hb hcond)

theorem excl_foldl_entries (annotations_cls : List AnnRow)
    (criterion : Criterion) (threshold : ℚ) :
    ∀ (l : List DetRow) (st : MatchResult),
      (∀ e ∈ st.1, e ∈ (l.foldl
        (exclusive_step annotations_cls criterion threshold) st).1) ∧
      (∀ e ∈ (l.foldl (exclusive_step annotations_cls criterion threshold)
          st).1,
        e ∈ st.1 ∨ ∃ d2 ∈ l, e.detection_index = some d2.index) := by
  intro l
  induction l with
  | nil => intro st; exact ⟨fun e he => he, fun e he => Or.inl he⟩
  | cons x rest ih =>
    intro st
    rw [List.foldl_cons]
    rcases exclusive_step_cases annotations_cls criterion threshold st x with
      hc | ⟨v, ann, _, _, _, hc⟩
    · rw [hc]
      refine ⟨(ih st).1, fun e he => ?_⟩
      rcases (ih st).2 e he with h | ⟨d2, hd2, hdi⟩
      · exact Or.inl h
      · exact Or.inr ⟨d2, List.mem_cons_of_mem x hd2, hdi⟩
    · rw [hc]
      refine ⟨?_, ?_⟩
      · intro e he
        exact (ih _).1 e (List.mem_append_left _ he)
      · intro e he
        rcases (ih _).2 e he with h | ⟨d2, hd2, hdi⟩
        · rcases List.mem_append.mp h with h2 | h2
          · exact Or.inl h2
          · rw [List.mem_singleton.mp h2]
            exact Or.inr ⟨x, List.mem_cons_self x rest, rfl⟩
        · exact Or.inr ⟨d2, List.mem_cons_of_mem x hd2, hdi⟩

/-- C2: the exclusive policy processes detections in confidence
descending order (the stable sort keeps ties in input order); for the
detection at any position of that order, bestAnn picks the annotation
of maximum criterion value with ties going to the first annotation in
iteration order; a tp entry for that detection is emitted exactly when
the maximum exists, reaches the threshold, and its annotation was not
claimed while processing the earlier (higher-confidence) prefix, and the
emitted entry carries that value and the detection's confidence. -/
theorem match_boxes_exclusive_greedy (annotations_cls : List AnnRow)
    (detections_cls : List DetRow) (criterion : Criterion) (threshold : ℚ)
    (hnodup : (detections_cls.map (fun r => r.index)).Nodup)
    (pre post : List DetRow) (d : DetRow)
    (hsplit : sort_detections detections_cls = pre ++ d :: post) :
    (∀ d2 ∈ pre, d.confidence ≤ d2.confidence) ∧
    (sort_detections detections_cls).Perm detections_cls ∧
    (∀ v a, bestAnn d criterion annotations_cls = some (v, a) →
      a ∈ annotations_cls ∧
      criterion d.center d.size a.center a.size = some v ∧
      (∀ b2 ∈ annotations_cls, ∀ w,
        criterion d.center d.size b2.center b2.size = some w → w ≤ v) ∧
      ∃ l1 l2, annotations_cls = l1 ++ a :: l2 ∧
        ∀ b2 ∈ l1, ∀ w,
          criterion d.center d.size b2.center b2.size = some w → w < v) ∧
    (bestAnn d criterion annotations_cls = none →
      ∀ b2 ∈ annotations_cls,
        criterion d.center d.size b2.center b2.size = none) ∧
    (∀ e ∈ (match_boxes_exclusive annotations_cls detections_cls criterion
        threshold).1,
      e.detection_index = some d.index →
        ∃ v a, bestAnn d criterion annotations_cls = some (v, a) ∧
          threshold ≤ v ∧
          a.index ∉ matched_after annotations_cls criterion threshold pre ∧
          e = build_matching_entry a.sample_name (some a.index) (some d.index)
            "tp" a.class_id (some v) (some d.confidence)) ∧
    (∀ v a, bestAnn d criterion annotations_cls = some (v, a) → threshold ≤ v →
      a.index ∉ matched_after annotations_cls criterion threshold pre →
      build_matching_entry a.sample_name (some a.index) (some d.index)
        "tp" a.class_id (some v) (some d.confidence) ∈
        (match_boxes_exclusive annotations_cls detections_cls criterion
          threshold).1) := by
  have hperm : (sort_detections detections_cls).Perm detections_cls :=
    List.perm_insertionSort _ _
  have hsorted : List.Pairwise (fun a b => det_conf_ge a b)
      (sort_detections detections_cls) := by
    haveI h1 : IsTotal DetRow det_conf_ge :=
      ⟨fun a b => le_total b.confidence a.confidence⟩
    haveI h2 : IsTrans DetRow det_conf_ge :=
      ⟨fun a b c hab hbc => le_trans hbc hab⟩
    exact List.sorted_insertionSort _ _
  have hfold : match_boxes_exclusive annotations_cls detections_cls criterion
      threshold = post.foldl
        (exclusive_step annotations_cls criterion threshold)
        (exclusive_step annotations_cls criterion threshold
          (pre.foldl (exclusive_step annotations_cls criterion threshold)
            ([], [], [])) d) := by
    unfold match_boxes_exclusive
    rw [hsplit, List.foldl_append, List.foldl_cons]
  have hnodup2 : ((pre ++ d :: post).map (fun r => r.index)).Nodup := by
    rw [← hsplit]
    exact ((hperm.map (fun r => r.index)).symm).nodup hnodup
  rw [List.map_append, List.map_cons, List.nodup_append] at hnodup2
  obtain ⟨hnpre, hncons, hdisj⟩ := hnodup2
  rw [List.nodup_cons] at hncons
  have hdpre : d.index ∉ pre.map (fun r => r.index) := by
    intro hmem
    exact hdisj hmem (List.mem_cons_self _ _)
  have hdpost : d.index ∉ post.map (fun r => r.index) := hncons.1
  have hnotpre : ∀ e, e.detection_index = some d.index →
      e ∉ (pre.foldl (exclusive_step annotations_cls criterion threshold)
        ([], [], [])).1 := by
    intro e hedet hmem
    rcases (excl_foldl_entries annotations_cls criterion threshold pre
      ([], [], [])).2 e hmem with h2 | ⟨d2, hd2, hdi⟩
    · simp at h2
    · rw [hedet] at hdi
      have hdd2 : d.index = d2.index := Option.some.inj hdi
      exact hdpre (hdd2 ▸ List.mem_map_of_mem (fun r => r.index) hd2)
  refine ⟨?_, hperm, ?_, ?_, ?_, ?_⟩
  · intro d2 hd2
    rw [hsplit] at hsorted
    exact (List.pairwise_append.mp hsorted).2.2 d2 hd2 d
      (List.mem_cons_self _ _)
  · intro v a hb
    obtain ⟨⟨l1, l2, hsp, hca, hlt⟩, hall⟩ :=
      bestAnn_spec d criterion annotations_cls v a hb
    exact ⟨by rw [hsp]; simp, hca, hall, l1, l2, hsp, hlt⟩
  · exact bestAnn_none d criterion annotations_cls
  · intro e he hedet
    rw [hfold] at he
    rcases (excl_foldl_entries annotations_cls criterion threshold post _).2
      e he with h | ⟨d2, hd2, hdi⟩
    · rcases exclusive_step_cases annotations_cls criterion threshold
        (pre.foldl (exclusive_step annotations_cls criterion threshold)
          ([], [], [])) d with hc | ⟨v, ann, hb, hle, hnm, hc⟩
      · rw [hc] at h
        exact absurd h (hnotpre e hedet)
      · rw [hc] at h
        rcases List.mem_append.mp h with h2 | h2
        · exact absurd h2 (hnotpre e hedet)
        · rw [List.mem_singleton.mp h2]
          exact ⟨v, ann, hb, hle, hnm, rfl⟩
    · rw [hedet] at hdi
      have heq : d.index = d2.index := Option.some.inj hdi
      exact absurd (heq ▸ List.mem_map_of_mem (fun r => r.index) hd2) hdpost
  · intro v a hb hle hnm
    have hstep := exclusive_step_eq_of_pos annotations_cls criterion threshold
      (pre.foldl (exclusive_step annotations_cls criterion threshold)
        ([], [], [])) d v a hb ⟨hle, hnm⟩
    have hmem : build_matching_entry a.sample_name (some a.index)
        (some d.index) "tp" a.class_id (some v) (some d.confidence) ∈
        (exclusive_step annotations_cls criterion threshold
          (pre.foldl (exclusive_step annotations_cls criterion threshold)
            ([], [], [])) d).1 := by
      rw [hstep]
      exact List.mem_append_right _ (by simp)
    rw [hfold]
    exact (excl_foldl_entries annotations_cls criterion threshold post _).1
      _ hmem

/-- Witness for match_boxes_exclusive_greedy on a one-detection,
one-annotation slice with a constant criterion: the tp entry is
emitted. -/
theorem match_boxes_exclusive_greedy_witness :
    ((([⟨"d0", "s0", "c0", (0, 0), (2, 2), 1⟩] : List DetRow).map
        (fun r => r.index)).Nodup ∧
      sort_detections [⟨"d0", "s0", "c0", (0, 0), (2, 2), 1⟩] =
        [] ++ ⟨"d0", "s0", "c0", (0, 0), (2, 2), 1⟩ :: [] ∧
      bestAnn ⟨"d0", "s0", "c0", (0, 0), (2, 2), 1⟩ (fun _ _ _ _ => some 1)
        [⟨"a0", "s0", "c0", (0, 0), (2, 2)⟩] =
        some (1, ⟨"a0", "s0", "c0", (0, 0), (2, 2)⟩) ∧
      (1 : ℚ) / 2 ≤ 1 ∧
      "a0" ∉ matched_after [⟨"a0", "s0", "c0", (0, 0), (2, 2)⟩]
        (fun _ _ _ _ => some 1) (1/2) []) ∧
    build_matching_entry "s0" (some "a0") (some "d0") "tp" "c0" (some 1)
        (some 1) ∈
      (match_boxes_exclusive [⟨"a0", "s0", "c0", (0, 0), (2, 2)⟩]
        [⟨"d0", "s0", "c0", (0, 0), (2, 2), 1⟩]
        (fun _ _ _ _ => some 1) (1/2)).1 := by
  refine ⟨⟨by decide, rfl, rfl, by norm_num, by decide⟩, ?_⟩
  exact (match_boxes_exclusive_greedy [⟨"a0", "s0", "c0", (0, 0), (2, 2)⟩]
    [⟨"d0", "s0", "c0", (0, 0), (2, 2), 1⟩] (fun _ _ _ _ => some 1) (1/2)
    (by decide) [] [] ⟨"d0", "s0", "c0", (0, 0), (2, 2), 1⟩ rfl).2.2.2.2.2
    1 ⟨"a0", "s0", "c0", (0, 0), (2, 2)⟩ rfl (by norm_num) (by decide)

/-! Per-sample structure of the correlator output, towards the
exclusivity of the reduced table. -/

theorem sample_name_list_nodup (annotation_data : List AnnRow) :
    (sample_name_list annotation_data).Nodup := by
  unfold sample_name_list
  exact (sortStr_perm _).nodup_iff.mpr (List.nodup_dedup _)

theorem class_id_list_nodup (annotation_data : List AnnRow)
    (detection_data : List DetRow) (match_classes : Option (List String)) :
    (class_id_list annotation_data detection_data match_classes).Nodup := by
  unfold class_id_list
  apply (sortStr_perm _).nodup_iff.mpr
  cases match_classes with
  | none => exact List.nodup_dedup _
  | some mc =>
    by_cases hmc : mc = []
    · simp only [hmc, if_pos rfl]
      exact List.nodup_dedup _
    · simp only [if_neg hmc]
      exact (List.nodup_dedup _).filter _

/-- A flatMap over a duplicate-free list whose entries vanish except
possibly at one point. -/
theorem flatMap_single (g : String → List MatchEntry) (s : String) :
    ∀ names : List String, names.Nodup →
      (∀ s2 ∈ names, s2 ≠ s → g s2 = []) →
      names.flatMap g = if s ∈ names then g s else [] := by
  intro names
  induction names with
  | nil => intro _ _; simp
  | cons s2 rest ih =>
    intro hnd hz
    rw [List.nodup_cons] at hnd
    rw [List.flatMap_cons]
    by_cases hs2 : s2 = s
    · subst hs2
      have hrest : rest.flatMap g = [] := by
        rw [List.flatMap_eq_nil_iff]
        intro x hx
        exact hz x (List.mem_cons_of_mem s2 hx)
          (fun hh => hnd.1 (hh ▸ hx))
      rw [hrest, if_pos (List.mem_cons_self s2 rest)]
      simp
    · rw [hz s2 (List.mem_cons_self s2 rest) hs2,
        ih hnd.2 (fun x hx hxs => hz x (List.mem_cons_of_mem s2 hx) hxs)]
      have hiff : (s ∈ s2 :: rest) ↔ (s ∈ rest) := by
        rw [List.mem_cons]
        constructor
        · intro h
          rcases h with h | h
          · exact absurd h.symm hs2
          · exact h
        · exact Or.inr
      by_cases hsr : s ∈ rest
      · rw [if_pos hsr, if_pos (hiff.mpr hsr)]
        simp
      · rw [if_neg hsr, if_neg (fun hh => hsr (hiff.mp hh))]
        simp

/-- Restriction of the correlator output to one sample: the blocks of
that sample when it is listed, nothing otherwise. -/
theorem correlator_filter_sample (mt : MatchingType)
    (annotation_data : List AnnRow) (detection_data : List DetRow)
    (criterion : Criterion) (threshold : ℚ)
    (match_classes : Option (List String)) (s : String) :
    (correlator_match mt annotation_data detection_data criterion threshold
        match_classes).filter (fun r => r.sample_name = s) =
      if s ∈ sample_name_list annotation_data then
        (class_id_list annotation_data detection_data match_classes).flatMap
          (fun c => match_block mt annotation_data detection_data criterion
            threshold s c)
      else [] := by
  unfold correlator_match
  rw [filter_flatMap_entries]
  have hz : ∀ s2 ∈ sample_name_list annotation_data, s2 ≠ s →
      ((class_id_list annotation_data detection_data match_classes).flatMap
        (fun c => match_block mt annotation_data detection_data criterion
          threshold s2 c)).filter (fun r => r.sample_name = s) = [] := by
    intro s2 _ hs2
    rw [List.filter_eq_nil_iff]
    intro e he
    rcases List.mem_flatMap.mp he with ⟨c, _, hec⟩
    have := (match_block_sample_class mt annotation_data detection_data
      criterion threshold s2 c e hec).1
    simp only [decide_eq_true_eq]
    rw [this]
    exact hs2
  rw [flatMap_single _ s _ (sample_name_list_nodup annotation_data) hz]
  by_cases hmem : s ∈ sample_name_list annotation_data
  · rw [if_pos hmem, if_pos hmem]
    rw [List.filter_eq_self]
    intro e he
    rcases List.mem_flatMap.mp he with ⟨c, _, hec⟩
    simp [(match_block_sample_class mt annotation_data detection_data
      criterion threshold s c e hec).1]
  · rw [if_neg hmem, if_neg hmem]

/-- Detection keys of the derived fp entries of one block. -/
theorem block_fp_entries_keys (mt : MatchingType)
    (annotation_data : List AnnRow) (detection_data : List DetRow)
    (criterion : Criterion) (threshold : ℚ) (s c : String) :
    (block_fp_entries mt annotation_data detection_data criterion threshold
        s c).map (fun e => e.detection_index) =
      (((det_slice detection_data s c).map (fun r => r.index)).dedup.filter
        (fun i => i ∉ (match_boxes mt (ann_slice annotation_data s c)
          (det_slice detection_data s c) criterion threshold).2.2)).map some := by
  unfold block_fp_entries
  rw [List.map_map]
  rfl

/-- Annotation keys of the derived fn entries of one block. -/
theorem block_fn_entries_keys (mt : MatchingType)
    (annotation_data : List AnnRow) (detection_data : List DetRow)
    (criterion : Criterion) (threshold : ℚ) (s c : String) :
    (block_fn_entries mt annotation_data detection_data criterion threshold
        s c).map (fun e => e.annotation_index) =
      (((ann_slice annotation_data s c).map (fun r => r.index)).dedup.filter
        (fun i => i ∉ (match_boxes mt (ann_slice annotation_data s c)
          (det_slice detection_data s c) criterion threshold).2.1)).map some := by
  unfold block_fn_entries
  rw [List.map_map]
  rfl

theorem block_fp_entries_confusion (mt : MatchingType)
    (annotation_data : List AnnRow) (detection_data : List DetRow)
    (criterion : Criterion) (threshold : ℚ) (s c : String) :
    ∀ e ∈ block_fp_entries mt annotation_data detection_data criterion
        threshold s c, e.confusion = "fp" := by
  intro e he
  simp only [block_fp_entries, List.mem_map] at he
  obtain ⟨i, _, hee⟩ := he
  rw [← hee]
  rfl

theorem block_fn_entries_confusion (mt : MatchingType)
    (annotation_data : List AnnRow) (detection_data : List DetRow)
    (criterion : Criterion) (threshold : ℚ) (s c : String) :
    ∀ e ∈ block_fn_entries mt annotation_data detection_data criterion
        threshold s c, e.confusion = "fn" := by
  intro e he
  simp only [block_fn_entries, List.mem_map] at he
  obtain ⟨i, _, hee⟩ := he
  rw [← hee]
  rfl

theorem match_block_tp_confusion (mt : MatchingType)
    (annotation_data : List AnnRow) (detection_data : List DetRow)
    (criterion : Criterion) (threshold : ℚ) (s c : String) :
    ∀ e ∈ (match_boxes mt (ann_slice annotation_data s c)
        (det_slice detection_data s c) criterion threshold).1,
      e.confusion = "tp" := by
  intro e he
  obtain ⟨a, _, d, _, v, _, hee⟩ := match_boxes_tp mt _ _ criterion threshold e he
  rw [hee]
  rfl

/-- The fp rows of one block are exactly its derived fp entries. -/
theorem match_block_filter_fp (mt : MatchingType)
    (annotation_data : List AnnRow) (detection_data : List DetRow)
    (criterion : Criterion) (threshold : ℚ) (s c : String) :
    (match_block mt annotation_data detection_data criterion threshold
        s c).filter (fun r => r.confusion = "fp") =
      block_fp_entries mt annotation_data detection_data criterion threshold
        s c := by
  unfold match_block
  rw [List.filter_append, List.filter_append]
  rw [List.filter_eq_nil_iff.mpr (fun e he => by
    simp [match_block_tp_confusion mt annotation_data detection_data criterion
      threshold s c e he])]
  rw [List.filter_eq_self.mpr (fun e he => by
    simp [block_fp_entries_confusion mt annotation_data detection_data
      criterion threshold s c e he])]
  rw [List.filter_eq_nil_iff.mpr (fun e he => by
    simp [block_fn_entries_confusion mt annotation_data detection_data
      criterion threshold s c e he])]
  simp

/-- The fn rows of one block are exactly its derived fn entries. -/
theorem match_block_filter_fn (mt : MatchingType)
    (annotation_data : List AnnRow) (detection_data : List DetRow)
    (criterion : Criterion) (threshold : ℚ) (s c : String) :
    (match_block mt annotation_data detection_data criterion threshold
        s c).filter (fun r => r.confusion = "fn") =
      block_fn_entries mt annotation_data detection_data criterion threshold
        s c := by
  unfold match_block
  rw [List.filter_append, List.filter_append]
  rw [List.filter_eq_nil_iff.mpr (fun e he => by
    simp [match_block_tp_confusion mt annotation_data detection_data criterion
      threshold s c e he])]
  rw [List.filter_eq_nil_iff.mpr (fun e he => by
    simp [block_fp_entries_confusion mt annotation_data detection_data
      criterion threshold s c e he])]
  rw [List.filter_eq_self.mpr (fun e he => by
    simp [block_fn_entries_confusion mt annotation_data detection_data
      criterion threshold s c e he])]
  simp

/-- Under duplicate-free annotation indices, an index value determines
the class of the slice it appears in. -/
theorem ann_slice_index_unique (annotation_data : List AnnRow)
    (hann : (annotation_data.map (fun r => r.index)).Nodup)
    {s c c2 i}
    (h1 : i ∈ (ann_slice annotation_data s c).map (fun r => r.index))
    (h2 : i ∈ (ann_slice annotation_data s c2).map (fun r => r.index)) :
    c = c2 := by
  obtain ⟨a1, ha1, hi1⟩ := List.mem_map.mp h1
  obtain ⟨a2, ha2, hi2⟩ := List.mem_map.mp h2
  obtain ⟨ha1m, _, ha1c⟩ := (mem_ann_slice annotation_data s c a1).mp ha1
  obtain ⟨ha2m, _, ha2c⟩ := (mem_ann_slice annotation_data s c2 a2).mp ha2
  have h12 : a1 = a2 :=
    List.inj_on_of_nodup_map hann ha1m ha2m (by rw [hi1, hi2])
  rw [← ha1c, h12, ha2c]

/-- Under duplicate-free detection indices, an index value determines
the class of the slice it appears in. -/
theorem det_slice_index_unique (detection_data : List DetRow)
    (hdet : (detection_data.map (fun r => r.index)).Nodup)
    {s c c2 i}
    (h1 : i ∈ (det_slice detection_data s c).map (fun r => r.index))
    (h2 : i ∈ (det_slice detection_data s c2).map (fun r => r.index)) :
    c = c2 := by
  obtain ⟨a1, ha1, hi1⟩ := List.mem_map.mp h1
  obtain ⟨a2, ha2, hi2⟩ := List.mem_map.mp h2
  obtain ⟨ha1m, _, ha1c⟩ := (mem_det_slice detection_data s c a1).mp ha1
  obtain ⟨ha2m, _, ha2c⟩ := (mem_det_slice detection_data s c2 a2).mp ha2
  have h12 : a1 = a2 :=
    List.inj_on_of_nodup_map hdet ha1m ha2m (by rw [hi1, hi2])
  rw [← ha1c, h12, ha2c]

/-- A tp row of a block is a tp entry of the policy result. -/
theorem match_block_tp_mem (mt : MatchingType) (annotation_data : List AnnRow)
    (detection_data : List DetRow) (criterion : Criterion) (threshold : ℚ)
    (s c : String) :
    ∀ e ∈ match_block mt annotation_data detection_data criterion threshold
        s c, e.confusion = "tp" →
      e ∈ (match_boxes mt (ann_slice annotation_data s c)
        (det_slice detection_data s c) criterion threshold).1 := by
  intro e he htp
  unfold match_block at he
  rcases List.mem_append.mp he with h1 | h1
  · rcases List.mem_append.mp h1 with h2 | h2
    · exact h2
    · have := block_fp_entries_confusion mt annotation_data detection_data
        criterion threshold s c e h2
      rw [htp] at this
      exact absurd this (by simp)
  · have := block_fn_entries_confusion mt annotation_data detection_data
      criterion threshold s c e h1
    rw [htp] at this
    exact absurd this (by simp)

/-- Within one sample of the correlator output, the fn rows carry
pairwise distinct annotation keys (given duplicate-free annotation
indices). -/
theorem raw_sample_fn_ann_nodup (mt : MatchingType)
    (annotation_data : List AnnRow) (detection_data : List DetRow)
    (criterion : Criterion) (threshold : ℚ)
    (match_classes : Option (List String)) (s : String)
    (hann : (annotation_data.map (fun r => r.index)).Nodup) :
    ((((correlator_match mt annotation_data detection_data criterion threshold
        match_classes).filter (fun r => r.sample_name = s)).filter
          (fun r => r.confusion = "fn")).map
        (fun r => r.annotation_index)).Nodup := by
  rw [correlator_filter_sample]
  by_cases hmem : s ∈ sample_name_list annotation_data
  · rw [if_pos hmem, filter_flatMap_entries, List.map_flatMap]
    show List.Pairwise _ _
    apply List.pairwise_flatMap.mpr
    constructor
    · intro c _
      rw [match_block_filter_fn, block_fn_entries_keys]
      exact ((List.nodup_dedup _).filter _).map (Option.some_injective String)
    · apply (class_id_list_nodup annotation_data detection_data
        match_classes).imp
      intro c1 c2 hne x hx y hy hxy
      rw [match_block_filter_fn, block_fn_entries_keys] at hx hy
      obtain ⟨i, hi, hxi⟩ := List.mem_map.mp hx
      obtain ⟨j, hj, hyj⟩ := List.mem_map.mp hy
      rw [List.mem_filter, List.mem_dedup] at hi hj
      have hij : i = j := by
        rw [← hxi, ← hyj] at hxy
        exact Option.some.inj hxy
      exact hne (ann_slice_index_unique annotation_data hann hi.1
        (hij ▸ hj.1))
  · rw [if_neg hmem]
    simp

/-- Within one sample of the correlator output, the fp rows carry
pairwise distinct detection keys (given duplicate-free prediction
indices). -/
theorem raw_sample_fp_det_nodup (mt : MatchingType)
    (annotation_data : List AnnRow) (detection_data : List DetRow)
    (criterion : Criterion) (threshold : ℚ)
    (match_classes : Option (List String)) (s : String)
    (hdet : (detection_data.map (fun r => r.index)).Nodup) :
    ((((correlator_match mt annotation_data detection_data criterion threshold
        match_classes).filter (fun r => r.sample_name = s)).filter
          (fun r => r.confusion = "fp")).map
        (fun r => r.detection_index)).Nodup := by
  rw [correlator_filter_sample]
  by_cases hmem : s ∈ sample_name_list annotation_data
  · rw [if_pos hmem, filter_flatMap_entries, List.map_flatMap]
    show List.Pairwise _ _
    apply List.pairwise_flatMap.mpr
    constructor
    · intro c _
      rw [match_block_filter_fp, block_fp_entries_keys]
      exact ((List.nodup_dedup _).filter _).map (Option.some_injective String)
    · apply (class_id_list_nodup annotation_data detection_data
        match_classes).imp
      intro c1 c2 hne x hx y hy hxy
      rw [match_block_filter_fp, block_fp_entries_keys] at hx hy
      obtain ⟨i, hi, hxi⟩ := List.mem_map.mp hx
      obtain ⟨j, hj, hyj⟩ := List.mem_map.mp hy
      rw [List.mem_filter, List.mem_dedup] at hi hj
      have hij : i = j := by
        rw [← hxi, ← hyj] at hxy
        exact Option.some.inj hxy
      exact hne (det_slice_index_unique detection_data hdet hi.1
        (hij ▸ hj.1))
  · rw [if_neg hmem]
    simp

/-- Within one sample of the correlator output, no annotation key of a
tp row also appears on an fn row (given duplicate-free annotation
indices). -/
theorem raw_sample_tp_fn_disjoint (mt : MatchingType)
    (annotation_data : List AnnRow) (detection_data : List DetRow)
    (criterion : Criterion) (threshold : ℚ)
    (match_classes : Option (List String)) (s : String)
    (hann : (annotation_data.map (fun r => r.index)).Nodup) :
    ∀ i : String,
      some i ∈ (((correlator_match mt annotation_data detection_data criterion
          threshold match_classes).filter (fun r => r.sample_name = s)).filter
            (fun r => r.confusion = "tp")).map (fun r => r.annotation_index) →
      some i ∉ (((correlator_match mt annotation_data detection_data criterion
          threshold match_classes).filter (fun r => r.sample_name = s)).filter
            (fun r => r.confusion = "fn")).map (fun r => r.annotation_index) := by
  intro i htp hfn
  rw [correlator_filter_sample] at htp hfn
  by_cases hmem : s ∈ sample_name_list annotation_data
  · rw [if_pos hmem, filter_flatMap_entries, List.map_flatMap] at htp hfn
    obtain ⟨c1, _, hx⟩ := List.mem_flatMap.mp htp
    obtain ⟨c2, _, hy⟩ := List.mem_flatMap.mp hfn
    obtain ⟨e1, he1, he1a⟩ := List.mem_map.mp hx
    rcases List.mem_filter.mp he1 with ⟨he1b, he1tp⟩
    simp only [decide_eq_true_eq] at he1tp
    have he1res := match_block_tp_mem mt annotation_data detection_data
      criterion threshold s c1 e1 he1b he1tp
    have hmatched : i ∈ (match_boxes mt (ann_slice annotation_data s c1)
        (det_slice detection_data s c1) criterion threshold).2.1 :=
      ((match_boxes_ids mt _ _ criterion threshold).1 i).mpr ⟨e1, he1res, he1a⟩
    obtain ⟨a, ha, d, _, v, _, hee⟩ :=
      match_boxes_tp mt _ _ criterion threshold e1 he1res
    have hai : a.index = i := by
      rw [hee] at he1a
      exact Option.some.inj he1a
    have hslice1 : i ∈ (ann_slice annotation_data s c1).map
        (fun r => r.index) := hai ▸ List.mem_map_of_mem (fun r => r.index) ha
    rw [match_block_filter_fn, block_fn_entries_keys] at hy
    obtain ⟨j, hj, hji⟩ := List.mem_map.mp hy
    have hij : j = i := Option.some.inj hji
    rw [List.mem_filter, List.mem_dedup] at hj
    have hc12 : c1 = c2 :=
      ann_slice_index_unique annotation_data hann hslice1 (hij ▸ hj.1)
    have hnotm := hj.2
    simp only [decide_eq_true_eq] at hnotm
    rw [hij, ← hc12] at hnotm
    exact hnotm hmatched
  · rw [if_neg hmem] at htp
    simp at htp

/-- Within one sample of the correlator output, no detection key of a
tp row also appears on an fp row (given duplicate-free prediction
indices). -/
theorem raw_sample_tp_fp_disjoint (mt : MatchingType)
    (annotation_data : List AnnRow) (detection_data : List DetRow)
    (criterion : Criterion) (threshold : ℚ)
    (match_classes : Option (List String)) (s : String)
    (hdet : (detection_data.map (fun r => r.index)).Nodup) :
    ∀ i : String,
      some i ∈ (((correlator_match mt annotation_data detection_data criterion
          threshold match_classes).filter (fun r => r.sample_name = s)).filter
            (fun r => r.confusion = "tp")).map (fun r => r.detection_index) →
      some i ∉ (((correlator_match mt annotation_data detection_data criterion
          threshold match_classes).filter (fun r => r.sample_name = s)).filter
            (fun r => r.confusion = "fp")).map (fun r => r.detection_index) := by
  intro i htp hfp
  rw [correlator_filter_sample] at htp hfp
  by_cases hmem : s ∈ sample_name_list annotation_data
  · rw [if_pos hmem, filter_flatMap_entries, List.map_flatMap] at htp hfp
    obtain ⟨c1, _, hx⟩ := List.mem_flatMap.mp htp
    obtain ⟨c2, _, hy⟩ := List.mem_flatMap.mp hfp
    obtain ⟨e1, he1, he1a⟩ := List.mem_map.mp hx
    rcases List.mem_filter.mp he1 with ⟨he1b, he1tp⟩
    simp only [decide_eq_true_eq] at he1tp
    have he1res := match_block_tp_mem mt annotation_data detection_data
      criterion threshold s c1 e1 he1b he1tp
    have hmatched : i ∈ (match_boxes mt (ann_slice annotation_data s c1)
        (det_slice detection_data s c1) criterion threshold).2.2 :=
      ((match_boxes_ids mt _ _ criterion threshold).2 i).mpr ⟨e1, he1res, he1a⟩
    obtain ⟨a, _, d, hd, v, _, hee⟩ :=
      match_boxes_tp mt _ _ criterion threshold e1 he1res
    have hdi : d.index = i := by
      rw [hee] at he1a
      exact Option.some.inj he1a
    have hslice1 : i ∈ (det_slice detection_data s c1).map
        (fun r => r.index) := hdi ▸ List.mem_map_of_mem (fun r => r.index) hd
    rw [match_block_filter_fp, block_fp_entries_keys] at hy
    obtain ⟨j, hj, hji⟩ := List.mem_map.mp hy
    have hij : j = i := Option.some.inj hji
    rw [List.mem_filter, List.mem_dedup] at hj
    have hc12 : c1 = c2 :=
      det_slice_index_unique detection_data hdet hslice1 (hij ▸ hj.1)
    have hnotm := hj.2
    simp only [decide_eq_true_eq] at hnotm
    rw [hij, ← hc12] at hnotm
    exact hnotm hmatched
  · rw [if_neg hmem] at htp
    simp at htp

/-! Key bookkeeping of the reduced sample, towards the exclusivity
invariant. -/

theorem countP_key_pos (key : MatchEntry → Option String) (l : List MatchEntry)
    (k : Option String) :
    0 < l.countP (fun e => key e = k) ↔ k ∈ l.map key := by
  rw [List.countP_pos_iff]
  constructor
  · rintro ⟨e, he, hk⟩
    simp only [decide_eq_true_eq] at hk
    exact hk ▸ List.mem_map_of_mem key he
  · intro h
    obtain ⟨e, he, hk⟩ := List.mem_map.mp h
    exact ⟨e, he, by simp [hk]⟩

theorem reduce_tp_keep_ann_nodup (m : List MatchEntry) (s : String) :
    ((reduce_tp_keep m s).map (fun r => r.annotation_index)).Nodup := by
  unfold reduce_tp_keep
  exact drop_duplicates_keys_nodup _ _

theorem reduce_tp_keep_det_nodup (m : List MatchEntry) (s : String) :
    ((reduce_tp_keep m s).map (fun r => r.detection_index)).Nodup := by
  unfold reduce_tp_keep
  have hsub := drop_duplicates_sublist (fun r : MatchEntry => r.annotation_index)
    (drop_duplicates (fun r : MatchEntry => r.detection_index)
      (reduce_tp_sorted m s))
  exact List.Nodup.sublist (hsub.map _) (drop_duplicates_keys_nodup _ _)

theorem reduce_tp_keep_keys_sub (m : List MatchEntry) (s : String)
    (key : MatchEntry → Option String) :
    ∀ k ∈ (reduce_tp_keep m s).map key,
      k ∈ ((m.filter (fun r => r.sample_name = s)).filter
        (fun r => r.confusion = "tp")).map key := by
  intro k hk
  obtain ⟨e, he, hke⟩ := List.mem_map.mp hk
  have he2 : e ∈ reduce_tp_sorted m s := mem_reduce_tp_keep_sub m s he
  unfold reduce_tp_sorted at he2
  have he3 := (sort_tp_perm _).mem_iff.mp he2
  exact hke ▸ List.mem_map_of_mem key he3

theorem reduce_fn_update_keys_nodup (m : List MatchEntry) (s : String) :
    ((reduce_fn_update m s).map (fun r => r.annotation_index)).Nodup := by
  unfold reduce_fn_update
  rw [List.map_map]
  have hc : ((fun r : MatchEntry => r.annotation_index) ∘
      (fun r : MatchEntry =>
        { r with detection_index := none, confusion := "fn", match_value := none,
                 confidence := none })) =
      fun r : MatchEntry => r.annotation_index := funext fun r => rfl
  rw [hc]
  exact drop_duplicates_keys_nodup _ _

theorem reduce_fp_update_keys_nodup (m : List MatchEntry) (s : String) :
    ((reduce_fp_update m s).map (fun r => r.detection_index)).Nodup := by
  unfold reduce_fp_update
  rw [List.map_map]
  have hc : ((fun r : MatchEntry => r.detection_index) ∘
      (fun r : MatchEntry =>
        { r with annotation_index := none, confusion := "fp",
                 match_value := none })) =
      fun r : MatchEntry => r.detection_index := funext fun r => rfl
  rw [hc]
  exact drop_duplicates_keys_nodup _ _

theorem reduce_fn_update_keys_mem (m : List MatchEntry) (s : String)
    (k : Option String)
    (hk : k ∈ (reduce_fn_update m s).map (fun r => r.annotation_index)) :
    k ∈ ((m.filter (fun r => r.sample_name = s)).filter
        (fun r => r.confusion = "tp")).map (fun r => r.annotation_index) ∧
    k ∉ (reduce_tp_keep m s).map (fun r => r.annotation_index) := by
  have hpos := (countP_key_pos (fun r => r.annotation_index) _ k).mpr hk
  rw [reduce_fn_update_countP m s k] at hpos
  by_cases hc : k ∈ ((m.filter (fun r => r.sample_name = s)).filter
      (fun r => r.confusion = "tp")).map (fun r => r.annotation_index) ∧
      k ∉ (reduce_tp_keep m s).map (fun r => r.annotation_index)
  · exact hc
  · rw [if_neg hc] at hpos
    exact absurd hpos (by simp)

theorem reduce_fp_update_keys_mem (m : List MatchEntry) (s : String)
    (k : Option String)
    (hk : k ∈ (reduce_fp_update m s).map (fun r => r.detection_index)) :
    k ∈ ((m.filter (fun r => r.sample_name = s)).filter
        (fun r => r.confusion = "tp")).map (fun r => r.detection_index) ∧
    k ∉ (reduce_tp_keep m s).map (fun r => r.detection_index) := by
  have hpos := (countP_key_pos (fun r => r.detection_index) _ k).mpr hk
  rw [reduce_fp_update_countP m s k] at hpos
  by_cases hc : k ∈ ((m.filter (fun r => r.sample_name = s)).filter
      (fun r => r.confusion = "tp")).map (fun r => r.detection_index) ∧
      k ∉ (reduce_tp_keep m s).map (fun r => r.detection_index)
  · exact hc
  · rw [if_neg hc] at hpos
    exact absurd hpos (by simp)

theorem reduce_sample_sample (m : List MatchEntry) (s : String) (b : Bool) :
    ∀ e ∈ reduce_sample m s b, e.sample_name = s := by
  intro e he
  have he2 := (reduce_sample_perm m s b).mem_iff.mp he
  rcases List.mem_append.mp he2 with h1 | h1
  · rcases List.mem_append.mp h1 with h2 | h2
    · rcases List.mem_append.mp h2 with h3 | h3
      · rcases List.mem_append.mp h3 with h4 | h4
        · exact ((mem_reduce_tp_sorted m s e).mp
            (mem_reduce_tp_keep_sub m s h4)).2.1
        · have := (List.mem_filter.mp (List.mem_filter.mp h4).1).2
          simpa using this
      · exact (reduce_fp_update_fields m s e h3).2.2.2
    · have := (List.mem_filter.mp (List.mem_filter.mp h2).1).2
      simpa using this
  · exact (reduce_fn_update_fields m s e h1).2.2.2.2

theorem reduce_filter_sample (m : List MatchEntry) (b : Bool) (s : String) :
    (reduce_to_exclusive m b).filter (fun r => r.sample_name = s) =
      if s ∈ sample_names_of m then reduce_sample m s b else [] := by
  unfold reduce_to_exclusive
  rw [filter_flatMap_entries]
  have hz : ∀ s2 ∈ sample_names_of m, s2 ≠ s →
      (reduce_sample m s2 b).filter (fun r => r.sample_name = s) = [] := by
    intro s2 _ hs2
    rw [List.filter_eq_nil_iff]
    intro e he
    simp only [decide_eq_true_eq]
    rw [reduce_sample_sample m s2 b e he]
    exact hs2
  rw [flatMap_single _ s _ (sample_names_nodup m) hz]
  by_cases hmem : s ∈ sample_names_of m
  · rw [if_pos hmem, if_pos hmem, List.filter_eq_self]
    intro e he
    simp [reduce_sample_sample m s b e he]
  · rw [if_neg hmem, if_neg hmem]

theorem reduce_sample_ann_unique (m : List MatchEntry) (s : String) (b : Bool)
    (hfp_null : ∀ e ∈ m, e.confusion = "fp" → e.annotation_index = none)
    (hfn_nodup : (((m.filter (fun r => r.sample_name = s)).filter
        (fun r => r.confusion = "fn")).map (fun r => r.annotation_index)).Nodup)
    (htpfn : ∀ i : String,
      some i ∈ ((m.filter (fun r => r.sample_name = s)).filter
        (fun r => r.confusion = "tp")).map (fun r => r.annotation_index) →
      some i ∉ ((m.filter (fun r => r.sample_name = s)).filter
        (fun r => r.confusion = "fn")).map (fun r => r.annotation_index)) :
    ∀ i : String,
      (reduce_sample m s b).countP (fun r => r.annotation_index = some i) ≤ 1 := by
  intro i
  rw [(reduce_sample_perm m s b).countP_eq]
  rw [List.countP_append, List.countP_append, List.countP_append,
    List.countP_append]
  have hc1le : (reduce_tp_keep m s).countP
      (fun r => r.annotation_index = some i) ≤ 1 :=
    countP_key_le_one (fun r => r.annotation_index) _
      (reduce_tp_keep_ann_nodup m s) (some i)
  have hc2 : ((m.filter (fun r => r.sample_name = s)).filter
      (fun r => r.confusion = "fp")).countP
      (fun r => r.annotation_index = some i) = 0 := by
    rw [List.countP_eq_zero]
    intro e he
    simp only [decide_eq_true_eq]
    rcases List.mem_filter.mp he with ⟨he1, he2⟩
    simp only [decide_eq_true_eq] at he2
    rw [hfp_null e (List.mem_filter.mp he1).1 he2]
    simp
  have hc3 : (reduce_fp_update m s).countP
      (fun r => r.annotation_index = some i) = 0 := by
    rw [List.countP_eq_zero]
    intro e he
    simp only [decide_eq_true_eq]
    rw [(reduce_fp_update_fields m s e he).2.1]
    simp
  have hc4le : ((m.filter (fun r => r.sample_name = s)).filter
      (fun r => r.confusion = "fn")).countP
      (fun r => r.annotation_index = some i) ≤ 1 :=
    countP_key_le_one (fun r => r.annotation_index) _ hfn_nodup (some i)
  have hc5le : (reduce_fn_update m s).countP
      (fun r => r.annotation_index = some i) ≤ 1 :=
    countP_key_le_one (fun r => r.annotation_index) _
      (reduce_fn_update_keys_nodup m s) (some i)
  by_cases h1 : 0 < (reduce_tp_keep m s).countP
      (fun r => r.annotation_index = some i)
  · have hk1 : some i ∈ (reduce_tp_keep m s).map
        (fun r => r.annotation_index) :=
      (countP_key_pos (fun r => r.annotation_index) _ (some i)).mp h1
    have hc5 : (reduce_fn_update m s).countP
        (fun r => r.annotation_index = some i) = 0 := by
      by_cases h5 : 0 < (reduce_fn_update m s).countP
          (fun r => r.annotation_index = some i)
      · exact absurd hk1
          (reduce_fn_update_keys_mem m s (some i)
            ((countP_key_pos (fun r => r.annotation_index) _ (some i)).mp h5)).2
      · omega
    have hc4 : ((m.filter (fun r => r.sample_name = s)).filter
        (fun r => r.confusion = "fn")).countP
        (fun r => r.annotation_index = some i) = 0 := by
      by_cases h4 : 0 < ((m.filter (fun r => r.sample_name = s)).filter
          (fun r => r.confusion = "fn")).countP
          (fun r => r.annotation_index = some i)
      · exact absurd
          ((countP_key_pos (fun r => r.annotation_index) _ (some i)).mp h4)
          (htpfn i (reduce_tp_keep_keys_sub m s (fun r => r.annotation_index)
            (some i) hk1))
      · omega
    omega
  · by_cases h4 : 0 < ((m.filter (fun r => r.sample_name = s)).filter
        (fun r => r.confusion = "fn")).countP
        (fun r => r.annotation_index = some i)
    · have hk4 := (countP_key_pos (fun r => r.annotation_index) _ (some i)).mp h4
      have hc5 : (reduce_fn_update m s).countP
          (fun r => r.annotation_index = some i) = 0 := by
        by_cases h5 : 0 < (reduce_fn_update m s).countP
            (fun r => r.annotation_index = some i)
        · exact absurd hk4
            (htpfn i (reduce_fn_update_keys_mem m s (some i)
              ((countP_key_pos (fun r => r.annotation_index) _
                (some i)).mp h5)).1)
        · omega
      omega
    · omega

theorem reduce_sample_det_unique (m : List MatchEntry) (s : String) (b : Bool)
    (hfn_null : ∀ e ∈ m, e.confusion = "fn" → e.detection_index = none)
    (hfp_nodup : (((m.filter (fun r => r.sample_name = s)).filter
        (fun r => r.confusion = "fp")).map (fun r => r.detection_index)).Nodup)
    (htpfp : ∀ i : String,
      some i ∈ ((m.filter (fun r => r.sample_name = s)).filter
        (fun r => r.confusion = "tp")).map (fun r => r.detection_index) →
      some i ∉ ((m.filter (fun r => r.sample_name = s)).filter
        (fun r => r.confusion = "fp")).map (fun r => r.detection_index)) :
    ∀ i : String,
      (reduce_sample m s b).countP (fun r => r.detection_index = some i) ≤ 1 := by
  intro i
  rw [(reduce_sample_perm m s b).countP_eq]
  rw [List.countP_append, List.countP_append, List.countP_append,
    List.countP_append]
  have hc1le : (reduce_tp_keep m s).countP
      (fun r => r.detection_index = some i) ≤ 1 :=
    countP_key_le_one (fun r => r.detection_index) _
      (reduce_tp_keep_det_nodup m s) (some i)
  have hc2le : ((m.filter (fun r => r.sample_name = s)).filter
      (fun r => r.confusion = "fp")).countP
      (fun r => r.detection_index = some i) ≤ 1 :=
    countP_key_le_one (fun r => r.detection_index) _ hfp_nodup (some i)
  have hc3le : (reduce_fp_update m s).countP
      (fun r => r.detection_index = some i) ≤ 1 :=
    countP_key_le_one (fun r => r.detection_index) _
      (reduce_fp_update_keys_nodup m s) (some i)
  have hc4 : ((m.filter (fun r => r.sample_name = s)).filter
      (fun r => r.confusion = "fn")).countP
      (fun r => r.detection_index = some i) = 0 := by
    rw [List.countP_eq_zero]
    intro e he
    simp only [decide_eq_true_eq]
    rcases List.mem_filter.mp he with ⟨he1, he2⟩
    simp only [decide_eq_true_eq] at he2
    rw [hfn_null e (List.mem_filter.mp he1).1 he2]
    simp
  have hc5 : (reduce_fn_update m s).countP
      (fun r => r.detection_index = some i) = 0 := by
    rw [List.countP_eq_zero]
    intro e he
    simp only [decide_eq_true_eq]
    rw [(reduce_fn_update_fields m s e he).2.1]
    simp
  by_cases h1 : 0 < (reduce_tp_keep m s).countP
      (fun r => r.detection_index = some i)
  · have hk1 : some i ∈ (reduce_tp_keep m s).map
        (fun r => r.detection_index) :=
      (countP_key_pos (fun r => r.detection_index) _ (some i)).mp h1
    have hc3 : (reduce_fp_update m s).countP
        (fun r => r.detection_index = some i) = 0 := by
      by_cases h3 : 0 < (reduce_fp_update m s).countP
          (fun r => r.detection_index = some i)
      · exact absurd hk1
          (reduce_fp_update_keys_mem m s (some i)
            ((countP_key_pos (fun r => r.detection_index) _ (some i)).mp h3)).2
      · omega
    have hc2 : ((m.filter (fun r => r.sample_name = s)).filter
        (fun r => r.confusion = "fp")).countP
        (fun r => r.detection_index = some i) = 0 := by
      by_cases h2 : 0 < ((m.filter (fun r => r.sample_name = s)).filter
          (fun r => r.confusion = "fp")).countP
          (fun r => r.detection_index = some i)
      · exact absurd
          ((countP_key_pos (fun r => r.detection_index) _ (some i)).mp h2)
          (htpfp i (reduce_tp_keep_keys_sub m s (fun r => r.detection_index)
            (some i) hk1))
      · omega
    omega
  · by_cases h2 : 0 < ((m.filter (fun r => r.sample_name = s)).filter
        (fun r => r.confusion = "fp")).countP
        (fun r => r.detection_index = some i)
    · have hk2 := (countP_key_pos (fun r => r.detection_index) _ (some i)).mp h2
      have hc3 : (reduce_fp_update m s).countP
          (fun r => r.detection_index = some i) = 0 := by
        by_cases h3 : 0 < (reduce_fp_update m s).countP
            (fun r => r.detection_index = some i)
        · exact absurd hk2
            (htpfp i (reduce_fp_update_keys_mem m s (some i)
              ((countP_key_pos (fun r => r.detection_index) _
                (some i)).mp h3)).1)
        · omega
      omega
    · omega

/-- C1: for every match table produced by the correlator (either policy)
with duplicate-free annotation and prediction indices, the table returned
by reduce_to_exclusive has, within each sample, at most one row carrying
any given annotation_index value and at most one row carrying any given
detection_index value. -/
theorem reduce_correlator_exclusive (mt : MatchingType)
    (annotation_data : List AnnRow) (detection_data : List DetRow)
    (criterion : Criterion) (threshold : ℚ)
    (match_classes : Option (List String)) (b : Bool)
    (hann : (annotation_data.map (fun r => r.index)).Nodup)
    (hdet : (detection_data.map (fun r => r.index)).Nodup) :
    ∀ (s i : String),
      ((reduce_to_exclusive (correlator_match mt annotation_data detection_data
          criterion threshold match_classes) b).filter
        (fun r => r.sample_name = s)).countP
          (fun r => r.annotation_index = some i) ≤ 1 ∧
      ((reduce_to_exclusive (correlator_match mt annotation_data detection_data
          criterion threshold match_classes) b).filter
        (fun r => r.sample_name = s)).countP
          (fun r => r.detection_index = some i) ≤ 1 := by
  intro s i
  rw [reduce_filter_sample]
  by_cases hmem : s ∈ sample_names_of (correlator_match mt annotation_data
      detection_data criterion threshold match_classes)
  · rw [if_pos hmem]
    constructor
    · apply reduce_sample_ann_unique _ s b ?_ ?_ ?_ i
      · intro e he hfp
        exact ((correlator_match_confusion mt annotation_data detection_data
          criterion threshold match_classes e he).2.1 hfp).1
      · exact raw_sample_fn_ann_nodup mt annotation_data detection_data
          criterion threshold match_classes s hann
      · exact raw_sample_tp_fn_disjoint mt annotation_data detection_data
          criterion threshold match_classes s hann
    · apply reduce_sample_det_unique _ s b ?_ ?_ ?_ i
      · intro e he hfn
        exact ((correlator_match_confusion mt annotation_data detection_data
          criterion threshold match_classes e he).2.2 hfn).1
      · exact raw_sample_fp_det_nodup mt annotation_data detection_data
          criterion threshold match_classes s hdet
      · exact raw_sample_tp_fp_disjoint mt annotation_data detection_data
          criterion threshold match_classes s hdet
  · rw [if_neg hmem]
    simp

/-- Closed instance of the exclusivity invariant on a concrete correlator
run with two annotations and two predictions competing for them. -/
theorem reduce_correlator_exclusive_witness :
    (([⟨"a0", "s", "c", (1, 1), (2, 2)⟩,
       ⟨"a1", "s", "c", (5, 5), (2, 2)⟩] : List AnnRow).map
        (fun r => r.index)).Nodup ∧
    (([⟨"d0", "s", "c", (1, 1), (2, 2), 9⟩,
       ⟨"d1", "s", "c", (1, 1), (2, 2), 7⟩] : List DetRow).map
        (fun r => r.index)).Nodup ∧
    (((reduce_to_exclusive (correlator_match .exclusive
        [⟨"a0", "s", "c", (1, 1), (2, 2)⟩,
         ⟨"a1", "s", "c", (5, 5), (2, 2)⟩]
        [⟨"d0", "s", "c", (1, 1), (2, 2), 9⟩,
         ⟨"d1", "s", "c", (1, 1), (2, 2), 7⟩]
        (fun _ _ _ _ => some 1) 1 none) false).filter
          (fun r => r.sample_name = "s")).countP
        (fun r => r.annotation_index = some "a0") ≤ 1 ∧
      ((reduce_to_exclusive (correlator_match .exclusive
        [⟨"a0", "s", "c", (1, 1), (2, 2)⟩,
         ⟨"a1", "s", "c", (5, 5), (2, 2)⟩]
        [⟨"d0", "s", "c", (1, 1), (2, 2), 9⟩,
         ⟨"d1", "s", "c", (1, 1), (2, 2), 7⟩]
        (fun _ _ _ _ => some 1) 1 none) false).filter
          (fun r => r.sample_name = "s")).countP
        (fun r => r.detection_index = some "a0") ≤ 1) :=
  ⟨by decide, by decide,
    reduce_correlator_exclusive .exclusive
      [⟨"a0", "s", "c", (1, 1), (2, 2)⟩,
       ⟨"a1", "s", "c", (5, 5), (2, 2)⟩]
      [⟨"d0", "s", "c", (1, 1), (2, 2), 9⟩,
       ⟨"d1", "s", "c", (1, 1), (2, 2), 7⟩]
      (fun _ _ _ _ => some 1) 1 none false (by decide) (by decide) "s" "a0"⟩

end KiaCorrelate
